import Mathlib

/-!
# Cactus kernel utilities and engine state: a shallow embedding

Source files embedded here:

* `kernel_utils.h`: `clamp_to_int8` (both overloads), `accum_i8mm` (dot-product and emulation
  tiers), `CactusThreading::get_optimal_thread_count`, `parallel_for`, `parallel_for_2d`,
  `parallel_reduce`.
* `engine.h`: `KVCache`, `Model::reset_cache`.

Conventions.

* `size_t` is the 64-bit unsigned type of the arm64 targets. Values are natural numbers;
  every `size_t` multiplication, addition and subtraction of the source is written with the
  wrapping operators `size_mul`, `size_add`, `size_sub` (reduction modulo `2^64`).
* Integer division by zero is undefined in C++; `size_div` returns `none` there and every
  function that reaches such a division returns `none`.
* `std::thread::hardware_concurrency()` is a value supplied by the platform; it is the first
  argument `hw` of each function that reads it. The C++ standard allows it to be `0`.
* The worker threads of `parallel_for` / `parallel_reduce` are joined before the function
  returns and thread `t` only touches slot `t`; the embedding records what each thread index
  is handed (its range) and, for `parallel_reduce`, the value stored in slot `t`.
-/

namespace Cactus

/-! ## `size_t` arithmetic -/

/-- Number of values of `size_t` (64-bit). -/
def SIZE_MOD : Nat := 2 ^ 64

/-- Wrapping `size_t` multiplication. -/
def size_mul (a b : Nat) : Nat := (a * b) % SIZE_MOD

/-- Wrapping `size_t` addition. -/
def size_add (a b : Nat) : Nat := (a + b) % SIZE_MOD

/-- Wrapping `size_t` subtraction (operands are `size_t` values). -/
def size_sub (a b : Nat) : Nat := (a + SIZE_MOD - b) % SIZE_MOD

/-- Unsigned `size_t` division; undefined (here `none`) for a zero divisor. -/
def size_div (a b : Nat) : Option Nat := if b = 0 then none else some (a / b)

/-- Unsigned `size_t` remainder; undefined (here `none`) for a zero divisor. -/
def size_mod (a b : Nat) : Option Nat := if b = 0 then none else some (a % b)

/-- The results of a sequence of steps, each of which may be undefined: defined only when
every step is. -/
def all_defined {α : Type} : List (Option α) → Option (List α)
  | [] => some []
  | none :: _ => none
  | some x :: rest =>
    match all_defined rest with
    | none => none
    | some xs => some (x :: xs)

namespace CactusThreading

/-! ## `get_optimal_thread_count` (kernel_utils.h:65-69) -/

/-- Embedding of `get_optimal_thread_count(total_work, min_work_per_thread)`;
`hw` is the value of `std::thread::hardware_concurrency()`. -/
def get_optimal_thread_count (hw total_work min_work_per_thread : Nat) : Option Nat :=
  if total_work < min_work_per_thread then some 1
  else
    match size_div total_work min_work_per_thread with
    | none => none
    | some q => some (min hw (max 1 q))

/-! ## `parallel_for` (kernel_utils.h:79-102) -/

/-- The pair `(start_idx, end_idx)` computed inside the lambda run by thread `t`
(kernel_utils.h:93-94 and 131-132). -/
def thread_range (total_work num_threads work_per_thread t : Nat) : Nat × Nat :=
  (size_mul t work_per_thread,
   if t = size_sub num_threads 1 then total_work
   else size_mul (size_add t 1) work_per_thread)

/-- The spawning loop `for (t = 0; t < num_threads; ++t)`: the range handed to each thread,
listed by thread index. -/
def spawn_ranges (total_work num_threads work_per_thread : Nat) : List (Nat × Nat) :=
  (List.range num_threads).map (thread_range total_work num_threads work_per_thread)

/-- The multi-threaded path of `parallel_for` (kernel_utils.h:88-101) for a given
`num_threads`: the ranges on which `work_func` is invoked, by thread index. -/
def parallel_for_multi (total_work num_threads : Nat) : Option (List (Nat × Nat)) :=
  match size_div total_work num_threads with
  | none => none
  | some work_per_thread => some (spawn_ranges total_work num_threads work_per_thread)

/-- What one call of `parallel_for` does: how many `std::thread` objects it creates and the
argument pairs `work_func` is invoked with. -/
structure Dispatch where
  spawned : Nat
  calls : List (Nat × Nat)
  deriving DecidableEq

/-- Embedding of `parallel_for(total_work, threshold, work_func)`. -/
def parallel_for (hw total_work threshold : Nat) : Option Dispatch :=
  match get_optimal_thread_count hw total_work threshold with
  | none => none
  | some num_threads =>
    if num_threads = 1 then some { spawned := 0, calls := [(0, total_work)] }
    else
      match parallel_for_multi total_work num_threads with
      | none => none
      | some rs => some { spawned := rs.length, calls := rs }

/-! ## `parallel_reduce` (kernel_utils.h:116-146) -/

/-- The vector `partial_results` after all threads have been joined: it starts as
`num_threads` copies of `init_value` and thread `t` overwrites slot `t` with
`work_func(start_idx, end_idx)`. -/
def store_partials {R : Type} (total_work num_threads work_per_thread : Nat)
    (work_func : Nat → Nat → R) (init_value : R) : List R :=
  (List.range num_threads).foldl
    (fun partial_results t =>
      partial_results.set t
        (work_func (thread_range total_work num_threads work_per_thread t).1
                   (thread_range total_work num_threads work_per_thread t).2))
    (List.replicate num_threads init_value)

/-- The multi-threaded path of `parallel_reduce` (kernel_utils.h:125-145) for a given
`num_threads`. -/
def parallel_reduce_multi {R : Type} (total_work num_threads : Nat)
    (work_func : Nat → Nat → R) (init_value : R) (combine_func : R → R → R) : Option R :=
  match size_div total_work num_threads with
  | none => none
  | some work_per_thread =>
    some ((store_partials total_work num_threads work_per_thread work_func init_value).foldl
            combine_func init_value)

/-- Embedding of `parallel_reduce(total_work, threshold, work_func, init_value, combine_func)`. -/
def parallel_reduce {R : Type} (hw total_work threshold : Nat)
    (work_func : Nat → Nat → R) (init_value : R) (combine_func : R → R → R) : Option R :=
  match get_optimal_thread_count hw total_work threshold with
  | none => none
  | some num_threads =>
    if num_threads = 1 then some (work_func 0 total_work)
    else parallel_reduce_multi total_work num_threads work_func init_value combine_func

/-! ## `parallel_for_2d` (kernel_utils.h:104-114) -/

/-- One iteration of the loop in the lambda of `parallel_for_2d` (kernel_utils.h:109-111):
the pair `(outer, inner)` that `work_func` is invoked with for `work_idx`. -/
def index_pair (inner_size work_idx : Nat) : Option (Nat × Nat) :=
  match size_div work_idx inner_size, size_mod work_idx inner_size with
  | some outer, some inner => some (outer, inner)
  | _, _ => none

/-- The lambda passed to `parallel_for` by `parallel_for_2d` (kernel_utils.h:107-113): the
loop `for (work_idx = start_idx; work_idx < end_idx; ++work_idx)`, as the list of pairs
`work_func` is invoked with, in loop order. -/
def lambda_2d (inner_size start_idx end_idx : Nat) : Option (List (Nat × Nat)) :=
  all_defined ((List.range' start_idx (end_idx - start_idx)).map (index_pair inner_size))

/-- What one call of `parallel_for_2d` does: how many threads it creates and, for each
invocation of the lambda (by thread index), the pairs `work_func` is invoked with. -/
structure Dispatch2d where
  spawned : Nat
  calls : List (List (Nat × Nat))
  deriving DecidableEq

/-- Embedding of `parallel_for_2d(outer_size, inner_size, threshold, work_func)`. -/
def parallel_for_2d (hw outer_size inner_size threshold : Nat) : Option Dispatch2d :=
  let total_work := size_mul outer_size inner_size
  match parallel_for hw total_work threshold with
  | none => none
  | some d =>
    match all_defined (d.calls.map (fun r => lambda_2d inner_size r.1 r.2)) with
    | none => none
    | some cs => some { spawned := d.spawned, calls := cs }

end CactusThreading

/-! ## Saturating casts (kernel_utils.h:13-20) -/

/-- The conversion `static_cast<int8_t>(x)` of an `int` value: the representative of `x`
modulo `2^8` in `[-128, 127]`. -/
def to_int8 (x : Int) : Int := (x + 128) % 256 - 128

/-- Embedding of `clamp_to_int8(int32_t value)` (kernel_utils.h:18-20). -/
def clamp_to_int8_int32 (value : Int) : Int :=
  to_int8 (max (-128) (min 127 value))

/-- A finite IEEE-754 binary32 (`float`) value, as the rational number it denotes:
`m * 2^e` with a 24-bit significand. -/
def is_binary32 (v : ℚ) : Prop :=
  ∃ m e : Int, |m| < 2 ^ 24 ∧ -149 ≤ e ∧ e ≤ 104 ∧ v = (m : ℚ) * (2 : ℚ) ^ e

/-- The C library function `roundf` on a finite value: the nearest integer, halfway cases away
from zero. The result is an integer-valued `float`; no rounding error is involved. -/
def roundf (v : ℚ) : ℚ :=
  if 0 ≤ v then ((⌊v + 1 / 2⌋ : Int) : ℚ) else ((-⌊-v + 1 / 2⌋ : Int) : ℚ)

/-- The conversion `static_cast<int32_t>(x)` of a finite `float`: truncation toward zero;
undefined (here `none`) when the truncated value is not an `int32_t` value. -/
def float_to_int32 (x : ℚ) : Option Int :=
  if -(2 : Int) ^ 31 ≤ (if 0 ≤ x then ⌊x⌋ else ⌈x⌉) ∧ (if 0 ≤ x then ⌊x⌋ else ⌈x⌉) ≤ 2 ^ 31 - 1
  then some (if 0 ≤ x then ⌊x⌋ else ⌈x⌉)
  else none

/-- Embedding of `clamp_to_int8(float value)` (kernel_utils.h:13-16) on finite values. -/
def clamp_to_int8_float (value : ℚ) : Option Int :=
  match float_to_int32 (roundf value) with
  | none => none
  | some clamped => some (to_int8 (max (-128) (min 127 clamped)))

/-! ## `accum_i8mm`, emulation tier (kernel_utils.h:32-48)

NEON registers are lane-indexed functions: `int8x16_t` is `Fin 16 → Int` with every lane in
`[-128, 127]`, `int16x8_t` is `Fin 8 → Int`, `int32x4_t` is `Fin 4 → Int`. The intrinsics
follow the Arm instruction semantics; results are reduced to the lane width. -/

/-- Representative of `x` modulo `2^16` in the `int16_t` range. -/
def to_int16 (x : Int) : Int := (x + 2 ^ 15) % 2 ^ 16 - 2 ^ 15

/-- Representative of `x` modulo `2^32` in the `int32_t` range. -/
def to_int32 (x : Int) : Int := (x + 2 ^ 31) % 2 ^ 32 - 2 ^ 31

/-- Lanes 0..7 of a 16-lane vector (`vget_low_s8`). -/
def vget_low_s8 (a : Fin 16 → Int) : Fin 8 → Int :=
  fun i => a ⟨i.val, by omega⟩

/-- Lanes 8..15 of a 16-lane vector (`vget_high_s8`). -/
def vget_high_s8 (a : Fin 16 → Int) : Fin 8 → Int :=
  fun i => a ⟨i.val + 8, by omega⟩

/-- Widening signed multiply (`vmull_s8`): lane `i` is `a[i] * b[i]` as an `int16_t`. -/
def vmull_s8 (a b : Fin 8 → Int) : Fin 8 → Int :=
  fun i => to_int16 (a i * b i)

/-- Pairwise add long (`vpaddlq_s16`): lane `j` is `p[2j] + p[2j+1]` as an `int32_t`. -/
def vpaddlq_s16 (p : Fin 8 → Int) : Fin 4 → Int :=
  fun j => to_int32 (p ⟨2 * j.val, by omega⟩ + p ⟨2 * j.val + 1, by omega⟩)

/-- Lane-wise wrapping 32-bit addition (`vaddq_s32`). -/
def vaddq_s32 (x y : Fin 4 → Int) : Fin 4 → Int :=
  fun j => to_int32 (x j + y j)

/-- Embedding of the emulation tier of `accum_i8mm(acc, a, b)` (kernel_utils.h:32-48). -/
def accum_i8mm (acc : Fin 4 → Int) (a b : Fin 16 → Int) : Fin 4 → Int :=
  let a_low := vget_low_s8 a
  let a_high := vget_high_s8 a
  let b_low := vget_low_s8 b
  let b_high := vget_high_s8 b
  let prod_low := vmull_s8 a_low b_low
  let prod_high := vmull_s8 a_high b_high
  let sum_low := vpaddlq_s16 prod_low
  let sum_high := vpaddlq_s16 prod_high
  let acc1 := vaddq_s32 acc sum_low
  let acc2 := vaddq_s32 acc1 sum_high
  acc2

/-- Signed dot product accumulate (`vdotq_s32`): lane `j` is `acc[j]` plus the four products
`a[4j+k] * b[4j+k]`, `k = 0..3`, in wrapping 32-bit arithmetic. -/
def vdotq_s32 (acc : Fin 4 → Int) (a b : Fin 16 → Int) : Fin 4 → Int :=
  fun j => to_int32 (acc j +
    (a ⟨4 * j.val, by omega⟩ * b ⟨4 * j.val, by omega⟩ +
     a ⟨4 * j.val + 1, by omega⟩ * b ⟨4 * j.val + 1, by omega⟩ +
     a ⟨4 * j.val + 2, by omega⟩ * b ⟨4 * j.val + 2, by omega⟩ +
     a ⟨4 * j.val + 3, by omega⟩ * b ⟨4 * j.val + 3, by omega⟩))

/-- Embedding of the dot-product tier of `accum_i8mm(acc, a, b)` (kernel_utils.h:27-30). -/
def accum_i8mm_dotprod (acc : Fin 4 → Int) (a b : Fin 16 → Int) : Fin 4 → Int :=
  vdotq_s32 acc a b

/-- Horizontal sum of the four lanes of an `int32x4_t`. -/
def lane_sum (v : Fin 4 → Int) : Int := v 0 + v 1 + v 2 + v 3

/-- The signed dot product of two 16-lane vectors, as an integer. -/
def dot16 (a b : Fin 16 → Int) : Int := ∑ i : Fin 16, a i * b i

/-- All lanes are `int8_t` values. -/
def lanes_int8 {n : Nat} (v : Fin n → Int) : Prop := ∀ i, -128 ≤ v i ∧ v i ≤ 127

/-- All lanes are `int32_t` values. -/
def lanes_int32 {n : Nat} (v : Fin n → Int) : Prop :=
  ∀ i, -(2 : Int) ^ 31 ≤ v i ∧ v i ≤ 2 ^ 31 - 1

/-! ## `KVCache` and `Model::reset_cache` (engine.h:124-137, 152)

`enum class Precision` is only forward-declared in `engine.h`; it is the type parameter
`Precision`. The members of `Model` other than `kv_cache_` are bundled in `rest`. -/

namespace engine

/-- Embedding of `struct KVCache` (engine.h:124-137); byte buffers are lists of bytes. -/
structure KVCache (Precision : Type) where
  keys : List (List Nat)
  values : List (List Nat)
  current_seq_len : Nat := 0
  max_seq_len : Nat := 2048
  precision : Precision
  element_size : Nat := 4

/-- A default-constructed `KVCache`: empty vectors and the default member initialisers of
engine.h:127-130. `precision` has no initialiser; its value is the parameter. -/
def KVCache.default_constructed {Precision : Type} (precision : Precision) :
    KVCache Precision :=
  { keys := [], values := [], current_seq_len := 0, max_seq_len := 2048,
    precision := precision, element_size := 4 }

/-- Embedding of `KVCache::is_empty` (engine.h:134). -/
def KVCache.is_empty {Precision : Type} (c : KVCache Precision) : Bool :=
  c.current_seq_len == 0

/-- Modelled from the spec: the body of `KVCache::reset()` is not in the sources (engine.h:133
only declares it). The spec says: "`reset()` sets `current_seq_len = 0` without deallocating";
"`reset()` logically empties it (`current_seq_len = 0`) without reallocation". -/
def KVCache.reset {Precision : Type} (c : KVCache Precision) : KVCache Precision :=
  { c with current_seq_len := 0 }

/-- Embedding of `class Model` (engine.h:139-201): the cache member and all other members. -/
structure Model (Precision : Type) (Rest : Type) where
  kv_cache_ : KVCache Precision
  rest : Rest

/-- Embedding of `Model::reset_cache` (engine.h:152): `kv_cache_.reset()`. -/
def Model.reset_cache {Precision Rest : Type} (m : Model Precision Rest) :
    Model Precision Rest :=
  { m with kv_cache_ := m.kv_cache_.reset }

end engine

/-! # Theorems -/

/-! ## `size_t` arithmetic without wrap-around -/

theorem size_div_of_pos (a b : Nat) (hb : 0 < b) : size_div a b = some (a / b) := by
  unfold size_div
  rw [if_neg (by omega)]

theorem size_div_zero (a : Nat) : size_div a 0 = none := by
  simp [size_div]

theorem size_mul_of_lt (a b : Nat) (h : a * b < SIZE_MOD) : size_mul a b = a * b :=
  Nat.mod_eq_of_lt h

theorem size_add_of_lt (a b : Nat) (h : a + b < SIZE_MOD) : size_add a b = a + b :=
  Nat.mod_eq_of_lt h

theorem size_sub_of_le (a b : Nat) (hba : b ≤ a) (ha : a < SIZE_MOD) : size_sub a b = a - b := by
  unfold size_sub
  have h : a + SIZE_MOD - b = (a - b) + SIZE_MOD := by omega
  rw [h, Nat.add_mod_right]
  exact Nat.mod_eq_of_lt (by omega)

namespace CactusThreading

/-! ## Thread count -/

theorem get_optimal_thread_count_of_pos (hw total_work threshold : Nat) (hthr : 0 < threshold) :
    get_optimal_thread_count hw total_work threshold =
      some (if total_work < threshold then 1 else min hw (max 1 (total_work / threshold))) := by
  unfold get_optimal_thread_count
  by_cases h : total_work < threshold
  · simp [h]
  · simp [h, size_div_of_pos _ _ hthr]

/-! ## The partition of `[0, total_work)` -/

/-- Thread `t` of `n` gets `[t * w, (t + 1) * w)` with `w = total_work / n`, except that the
last thread's range ends at `total_work`; no `size_t` operation wraps. -/
theorem thread_range_eq (total_work n t : Nat) (htw : total_work < SIZE_MOD)
    (hn : n < SIZE_MOD) (ht : t < n) :
    thread_range total_work n (total_work / n) t =
      (t * (total_work / n),
       if t + 1 = n then total_work else (t + 1) * (total_work / n)) := by
  have hle : n * (total_work / n) ≤ total_work := Nat.mul_div_le total_work n
  have h1 : t * (total_work / n) ≤ n * (total_work / n) :=
    Nat.mul_le_mul_right _ (by omega)
  have h2 : (t + 1) * (total_work / n) ≤ n * (total_work / n) :=
    Nat.mul_le_mul_right _ (by omega)
  unfold thread_range
  rw [size_mul_of_lt _ _ (by omega), size_add_of_lt _ _ (by omega),
    size_sub_of_le _ _ (by omega) hn, size_mul_of_lt _ _ (by omega)]
  by_cases hlast : t + 1 = n
  · rw [if_pos (by omega), if_pos hlast]
  · rw [if_neg (by omega), if_neg hlast]

theorem spawn_ranges_length (total_work n w : Nat) :
    (spawn_ranges total_work n w).length = n := by
  simp [spawn_ranges]

theorem spawn_ranges_getElem? (total_work n w t : Nat) :
    (spawn_ranges total_work n w)[t]? =
      if t < n then some (thread_range total_work n w t) else none := by
  unfold spawn_ranges
  by_cases ht : t < n
  · simp [ht, List.getElem?_range ht]
  · rw [if_neg ht]
    apply List.getElem?_eq_none_iff.mpr
    simp only [List.length_map, List.length_range]
    omega

/-- Range boundaries: `t * (total_work / n)` for `t < n`, and `total_work` from `n` on. -/
theorem boundary_mono (total_work n t : Nat) :
    (if t < n then t * (total_work / n) else total_work) ≤
      (if t + 1 < n then (t + 1) * (total_work / n) else total_work) := by
  have hle : n * (total_work / n) ≤ total_work := Nat.mul_div_le total_work n
  by_cases h1 : t + 1 < n
  · rw [if_pos (by omega), if_pos h1]
    exact Nat.mul_le_mul_right _ (by omega)
  · rw [if_neg h1]
    by_cases h0 : t < n
    · rw [if_pos h0]
      exact le_trans (Nat.mul_le_mul_right _ (by omega)) hle
    · rw [if_neg h0]

/-- A nondecreasing sequence of boundaries from `0` splits `[0, b n)` into the `n` half-open
intervals `[b t, b (t+1))`, each index lying in exactly one. -/
theorem boundaries_cover (b : Nat → Nat) (n : Nat) (hmono : ∀ t, b t ≤ b (t + 1))
    (h0 : b 0 = 0) (i : Nat) (hi : i < b n) :
    ∃! t, t < n ∧ b t ≤ i ∧ i < b (t + 1) := by
  have hmono2 : ∀ s t, s ≤ t → b s ≤ b t := by
    intro s t hst
    induction t with
    | zero =>
      have : s = 0 := by omega
      subst this
      exact le_refl _
    | succ k ih =>
      by_cases hk : s ≤ k
      · exact le_trans (ih hk) (hmono k)
      · have : s = k + 1 := by omega
        subst this
        exact le_refl _
  have hn : 0 < n := by
    by_contra hcon
    have : n = 0 := by omega
    subst this
    omega
  have hex : ∃ t, i < b (t + 1) := ⟨n - 1, by
    have : n - 1 + 1 = n := by omega
    rw [this]
    exact hi⟩
  refine ⟨Nat.find hex, ⟨?_, ?_, Nat.find_spec hex⟩, ?_⟩
  · have : Nat.find hex ≤ n - 1 := Nat.find_min' hex (by
      have : n - 1 + 1 = n := by omega
      rw [this]
      exact hi)
    omega
  · by_cases hz : Nat.find hex = 0
    · rw [hz, h0]
      exact Nat.zero_le _
    · have hlt : Nat.find hex - 1 < Nat.find hex := by omega
      have := Nat.find_min hex hlt
      have hs : Nat.find hex - 1 + 1 = Nat.find hex := by omega
      rw [hs] at this
      omega
  · rintro t ⟨_, hlo, hhi⟩
    have hge : Nat.find hex ≤ t := Nat.find_min' hex hhi
    by_contra hne
    have hlt : Nat.find hex + 1 ≤ t := by omega
    have h1 := hmono2 _ _ hlt
    have h2 := Nat.find_spec hex
    omega

/-- Entry `t` of the list of ranges, in terms of the boundaries. -/
theorem spawn_ranges_boundaries (total_work n t : Nat) (htw : total_work < SIZE_MOD)
    (hn : n < SIZE_MOD) :
    (spawn_ranges total_work n (total_work / n))[t]? =
      if t < n then
        some (if t < n then t * (total_work / n) else total_work,
              if t + 1 < n then (t + 1) * (total_work / n) else total_work)
      else none := by
  rw [spawn_ranges_getElem?]
  by_cases ht : t < n
  · rw [if_pos ht, if_pos ht, if_pos ht, thread_range_eq _ _ _ htw hn ht]
    by_cases hlast : t + 1 = n
    · rw [if_pos hlast, if_neg (by omega)]
    · rw [if_neg hlast, if_pos (by omega)]
  · rw [if_neg ht, if_neg ht]

/-! ## The partial results of `parallel_reduce` -/

theorem foldl_set_length {R : Type} (f : Nat → R) (l : List R) (k : Nat) :
    ((List.range k).foldl (fun pr t => pr.set t (f t)) l).length = l.length := by
  induction k with
  | zero => rfl
  | succ k ih =>
    rw [List.range_succ, List.foldl_append]
    simp only [List.foldl_cons, List.foldl_nil, List.length_set]
    exact ih

theorem foldl_set_getElem? {R : Type} (f : Nat → R) (l : List R) (k j : Nat) :
    ((List.range k).foldl (fun pr t => pr.set t (f t)) l)[j]? =
      if j < k ∧ j < l.length then some (f j) else l[j]? := by
  induction k with
  | zero => simp
  | succ k ih =>
    rw [List.range_succ, List.foldl_append]
    simp only [List.foldl_cons, List.foldl_nil]
    rw [List.getElem?_set, foldl_set_length]
    by_cases hkj : k = j
    · subst hkj
      rw [if_pos rfl]
      by_cases hl : k < l.length
      · rw [if_pos hl, if_pos ⟨by omega, hl⟩]
      · rw [if_neg hl, if_neg (by omega)]
        exact (List.getElem?_eq_none_iff.mpr (by omega)).symm
    · rw [if_neg hkj, ih]
      by_cases hc : j < k ∧ j < l.length
      · rw [if_pos hc, if_pos ⟨by omega, hc.2⟩]
      · rw [if_neg hc, if_neg (by omega)]

/-- After the join, slot `t` of `partial_results` holds `work_func` applied to the range of
thread `t`: the initial copies of `init_value` are all overwritten. -/
theorem store_partials_eq_map {R : Type} (total_work n w : Nat)
    (work_func : Nat → Nat → R) (init_value : R) :
    store_partials total_work n w work_func init_value =
      (spawn_ranges total_work n w).map (fun r => work_func r.1 r.2) := by
  apply List.ext_getElem?
  intro j
  unfold store_partials
  rw [foldl_set_getElem?
    (fun t => work_func (thread_range total_work n w t).1 (thread_range total_work n w t).2),
    List.getElem?_map, spawn_ranges_getElem?, List.length_replicate,
    List.getElem?_replicate]
  by_cases hj : j < n
  · rw [if_pos ⟨hj, hj⟩, if_pos hj]
    rfl
  · rw [if_neg (by omega), if_neg hj, if_neg hj]
    rfl

/-- With at least one thread, the multi-threaded path of `parallel_reduce` returns the left
fold of `combine_func` from `init_value` over the per-range results, in the order of the
ranges handed out by `parallel_for`. -/
theorem parallel_reduce_multi_fold {R : Type} (total_work n : Nat) (hn : 0 < n)
    (work_func : Nat → Nat → R) (init_value : R) (combine_func : R → R → R) :
    ∃ rs, parallel_for_multi total_work n = some rs ∧
      parallel_reduce_multi total_work n work_func init_value combine_func =
        some ((rs.map (fun r => work_func r.1 r.2)).foldl combine_func init_value) := by
  refine ⟨spawn_ranges total_work n (total_work / n), ?_, ?_⟩
  · unfold parallel_for_multi
    rw [size_div_of_pos _ _ hn]
  · unfold parallel_reduce_multi
    rw [size_div_of_pos _ _ hn]
    simp only [store_partials_eq_map]

/-- The partial results as a list over thread indices, in terms of the boundaries. -/
theorem spawn_ranges_map_boundaries {R : Type} (total_work n : Nat)
    (htw : total_work < SIZE_MOD) (hn : n < SIZE_MOD) (work_func : Nat → Nat → R) :
    (spawn_ranges total_work n (total_work / n)).map (fun r => work_func r.1 r.2) =
      (List.range n).map (fun t =>
        work_func (if t < n then t * (total_work / n) else total_work)
          (if t + 1 < n then (t + 1) * (total_work / n) else total_work)) := by
  apply List.ext_getElem?
  intro j
  rw [List.getElem?_map, spawn_ranges_boundaries _ _ _ htw hn, List.getElem?_map]
  by_cases hj : j < n
  · rw [if_pos hj, List.getElem?_range hj]
    rfl
  · rw [if_neg hj, List.getElem?_eq_none_iff.mpr (by simp; omega)]
    rfl

/-- Folding an associative `combine` over the results of a range-additive `work` on
consecutive intervals `[b t, b (t+1))`, `t < n`, gives `combine init (work (b 0) (b n))`. -/
theorem foldl_consecutive {R : Type} (combine : R → R → R) (work : Nat → Nat → R) (init : R)
    (b : Nat → Nat) (hmono : ∀ t, b t ≤ b (t + 1))
    (hassoc : ∀ x y z, combine (combine x y) z = combine x (combine y z))
    (hadd : ∀ x y z, x ≤ y → y ≤ z → work x z = combine (work x y) (work y z))
    (n : Nat) :
    ((List.range (n + 1)).map (fun t => work (b t) (b (t + 1)))).foldl combine init =
      combine init (work (b 0) (b (n + 1))) := by
  have hmono2 : ∀ t, b 0 ≤ b t := by
    intro t
    induction t with
    | zero => exact le_refl _
    | succ k ih => exact le_trans ih (hmono k)
  induction n with
  | zero => rfl
  | succ k ih =>
    rw [List.range_succ, List.map_append, List.foldl_append, ih]
    simp only [List.map_cons, List.map_nil, List.foldl_cons, List.foldl_nil]
    rw [hassoc, ← hadd _ _ _ (hmono2 (k + 1)) (hmono (k + 1))]

/-! ## C1 -/

/-- C1, as stated, fails: for `hardware_concurrency() = 0`, `total_work = 0`, `threshold = 1`
the early return of `get_optimal_thread_count` yields `1`, whereas
`min(h, max(1, total_work / threshold))` is `0`. -/
theorem get_optimal_thread_count_formula_fails_hw_zero :
    (0 : Nat) < 1 ∧ get_optimal_thread_count 0 0 1 = some 1 ∧
      get_optimal_thread_count 0 0 1 ≠ some (min 0 (max 1 (0 / 1))) := by
  decide

/-- C1, amended: for `threshold > 0`, `get_optimal_thread_count` returns `1` when
`total_work < threshold` and `min(h, max(1, total_work / threshold))` otherwise; the result
equals `min(h, max(1, total_work / threshold))` whenever `h ≥ 1` or
`total_work ≥ threshold`. -/
theorem get_optimal_thread_count_formula (hw total_work threshold : Nat)
    (hthr : 0 < threshold) :
    get_optimal_thread_count hw total_work threshold =
        some (if total_work < threshold then 1
              else min hw (max 1 (total_work / threshold))) ∧
      (1 ≤ hw ∨ threshold ≤ total_work →
        get_optimal_thread_count hw total_work threshold =
          some (min hw (max 1 (total_work / threshold)))) := by
  refine ⟨get_optimal_thread_count_of_pos hw total_work threshold hthr, ?_⟩
  intro h
  rw [get_optimal_thread_count_of_pos hw total_work threshold hthr]
  by_cases hlt : total_work < threshold
  · rw [if_pos hlt, Nat.div_eq_of_lt hlt]
    have h1 : 1 ≤ hw := by omega
    congr 1
    simp only [Nat.zero_le, max_eq_left]
    exact (Nat.min_eq_right h1).symm
  · rw [if_neg hlt]

theorem get_optimal_thread_count_formula_witness :
    (0 : Nat) < 3 ∧
      (get_optimal_thread_count 4 10 3 = some (if 10 < 3 then 1 else min 4 (max 1 (10 / 3))) ∧
        (1 ≤ 4 ∨ 3 ≤ 10 → get_optimal_thread_count 4 10 3 = some (min 4 (max 1 (10 / 3))))) :=
  ⟨by decide, get_optimal_thread_count_formula 4 10 3 (by decide)⟩

/-! ## C2 -/

/-- C2: for every `size_t` value `total_work` and every `num_threads ≥ 1`, the multi-threaded
path of `parallel_for` hands out `num_threads` ranges; range 0 starts at `0`, the last range
ends at `total_work`, each range starts where the previous one ends, and every index
`i < total_work` lies in exactly one range. -/
theorem parallel_for_ranges_tile (total_work num_threads : Nat)
    (htw : total_work < SIZE_MOD) (hn1 : 1 ≤ num_threads) (hn : num_threads < SIZE_MOD) :
    ∃ rs, parallel_for_multi total_work num_threads = some rs ∧
      rs.length = num_threads ∧
      rs[0]?.map Prod.fst = some 0 ∧
      rs[num_threads - 1]?.map Prod.snd = some total_work ∧
      (∀ t r r', rs[t]? = some r → rs[t + 1]? = some r' → r'.1 = r.2) ∧
      (∀ i, i < total_work → ∃! t : Nat, ∃ r : Nat × Nat, rs[t]? = some r ∧ r.1 ≤ i ∧ i < r.2) := by
  refine ⟨spawn_ranges total_work num_threads (total_work / num_threads), ?_,
    spawn_ranges_length _ _ _, ?_, ?_, ?_, ?_⟩
  · unfold parallel_for_multi
    rw [size_div_of_pos _ _ (by omega)]
  · rw [spawn_ranges_boundaries _ _ _ htw hn, if_pos (by omega), if_pos (by omega)]
    simp
  · rw [spawn_ranges_boundaries _ _ _ htw hn, if_pos (by omega), if_pos (by omega),
      if_neg (by omega)]
    simp
  · intro t r r' hr hr'
    rw [spawn_ranges_boundaries _ _ _ htw hn] at hr hr'
    by_cases h1 : t + 1 < num_threads
    · rw [if_pos (by omega), if_pos (by omega), if_pos h1] at hr
      rw [if_pos h1, if_pos h1] at hr'
      cases hr
      cases hr'
      rfl
    · rw [if_neg h1] at hr'
      cases hr'
  · intro i hi
    have hcov := boundaries_cover
      (fun t => if t < num_threads then t * (total_work / num_threads) else total_work)
      num_threads (fun t => boundary_mono total_work num_threads t)
      (by
        show (if 0 < num_threads then 0 * (total_work / num_threads) else total_work) = 0
        rw [if_pos (by omega), Nat.zero_mul]) i (by
        show i < (if num_threads < num_threads then _ else total_work)
        rw [if_neg (lt_irrefl _)]
        exact hi)
    obtain ⟨t, ⟨ht, hlo, hhi⟩, huniq⟩ := hcov
    refine ⟨t, ⟨(if t < num_threads then t * (total_work / num_threads) else total_work,
      if t + 1 < num_threads then (t + 1) * (total_work / num_threads) else total_work),
      ?_, hlo, hhi⟩, ?_⟩
    · rw [spawn_ranges_boundaries _ _ _ htw hn, if_pos ht]
    · rintro t' ⟨r, hr, hlo', hhi'⟩
      rw [spawn_ranges_boundaries _ _ _ htw hn] at hr
      by_cases ht' : t' < num_threads
      · rw [if_pos ht'] at hr
        cases hr
        exact huniq t' ⟨ht', hlo', hhi'⟩
      · rw [if_neg ht'] at hr
        cases hr

theorem parallel_for_ranges_tile_witness :
    (10 : Nat) < SIZE_MOD ∧ 1 ≤ 3 ∧ 3 < SIZE_MOD ∧
      ∃ rs, parallel_for_multi 10 3 = some rs ∧
        rs.length = 3 ∧
        rs[0]?.map Prod.fst = some 0 ∧
        rs[3 - 1]?.map Prod.snd = some 10 ∧
        (∀ t r r', rs[t]? = some r → rs[t + 1]? = some r' → r'.1 = r.2) ∧
        (∀ i, i < 10 → ∃! t : Nat, ∃ r : Nat × Nat, rs[t]? = some r ∧ r.1 ≤ i ∧ i < r.2) :=
  ⟨by decide, by decide, by decide,
    parallel_for_ranges_tile 10 3 (by decide) (by decide) (by decide)⟩

/-! ## C3 -/

/-- C3: for every `size_t` value `total_work` and every `n ≥ 2` threads, each of the first
`n - 1` ranges of the partition holds exactly `total_work / n` indices and the final range
holds exactly `total_work / n + total_work % n` indices. -/
theorem parallel_for_range_sizes (total_work n : Nat)
    (htw : total_work < SIZE_MOD) (hn2 : 2 ≤ n) (hn : n < SIZE_MOD) :
    ∃ rs, parallel_for_multi total_work n = some rs ∧ rs.length = n ∧
      (∀ t r, t + 1 < n → rs[t]? = some r → r.2 = r.1 + total_work / n) ∧
      (∀ r, rs[n - 1]? = some r → r.2 = r.1 + (total_work / n + total_work % n)) ∧
      (∃ r, rs[n - 1]? = some r) := by
  refine ⟨spawn_ranges total_work n (total_work / n), ?_, spawn_ranges_length _ _ _, ?_, ?_, ?_⟩
  · unfold parallel_for_multi
    rw [size_div_of_pos _ _ (by omega)]
  · intro t r ht hr
    rw [spawn_ranges_boundaries _ _ _ htw hn, if_pos (by omega), if_pos (by omega),
      if_pos ht] at hr
    cases hr
    show (t + 1) * (total_work / n) = t * (total_work / n) + total_work / n
    rw [Nat.add_mul, Nat.one_mul]
  · intro r hr
    rw [spawn_ranges_boundaries _ _ _ htw hn, if_pos (by omega), if_pos (by omega),
      if_neg (by omega)] at hr
    cases hr
    show total_work = (n - 1) * (total_work / n) + (total_work / n + total_work % n)
    have h := Nat.div_add_mod total_work n
    have h2 : (n - 1 + 1) * (total_work / n) =
        (n - 1) * (total_work / n) + total_work / n := by
      rw [Nat.add_mul, Nat.one_mul]
    have h3 : n - 1 + 1 = n := by omega
    rw [h3] at h2
    omega
  · rw [spawn_ranges_boundaries _ _ _ htw hn, if_pos (by omega)]
    exact ⟨_, rfl⟩

theorem parallel_for_range_sizes_witness :
    (10 : Nat) < SIZE_MOD ∧ 2 ≤ 3 ∧ 3 < SIZE_MOD ∧
      ∃ rs, parallel_for_multi 10 3 = some rs ∧ rs.length = 3 ∧
        (∀ t r, t + 1 < 3 → rs[t]? = some r → r.2 = r.1 + 10 / 3) ∧
        (∀ r, rs[3 - 1]? = some r → r.2 = r.1 + (10 / 3 + 10 % 3)) ∧
        (∃ r, rs[3 - 1]? = some r) :=
  ⟨by decide, by decide, by decide,
    parallel_for_range_sizes 10 3 (by decide) (by decide) (by decide)⟩

/-! ## C4 -/

/-- For a computed thread count `n ≥ 2`, `parallel_for` spawns `n` threads on the ranges `rs`
and `parallel_reduce` returns the left fold of `combine_func` from `init_value` over
`work_func` applied to those same ranges, in partition order. -/
theorem parallel_reduce_fold_of_two_le {R : Type} (hw total_work threshold n : Nat)
    (work_func : Nat → Nat → R) (init_value : R) (combine_func : R → R → R)
    (hcount : get_optimal_thread_count hw total_work threshold = some n) (hn : 2 ≤ n) :
    ∃ rs, parallel_for hw total_work threshold = some { spawned := n, calls := rs } ∧
      parallel_reduce hw total_work threshold work_func init_value combine_func =
        some ((rs.map (fun r => work_func r.1 r.2)).foldl combine_func init_value) := by
  obtain ⟨rs, hrs, hred⟩ :=
    parallel_reduce_multi_fold total_work n (by omega) work_func init_value combine_func
  refine ⟨rs, ?_, ?_⟩
  · unfold parallel_for
    rw [hcount]
    simp only
    rw [if_neg (by omega), hrs]
    have hlen : rs.length = n := by
      unfold parallel_for_multi at hrs
      rw [size_div_of_pos _ _ (by omega)] at hrs
      cases hrs
      exact spawn_ranges_length _ _ _
    simp only [hlen]
  · unfold parallel_reduce
    rw [hcount]
    simp only
    rw [if_neg (by omega), hred]

/-- C4, behaviour of the code at the failing input `hardware_concurrency() = 0`,
`total_work = 1`, `threshold = 1`: the computed thread count is `0`, which is not `1`, so
`parallel_reduce` takes the multi-threaded path and evaluates `total_work / num_threads`
with `num_threads = 0`; the division is undefined and no fold of partial results is
returned, for every work function, initial value and combine function. -/
theorem parallel_reduce_zero_threads {R : Type}
    (work_func : Nat → Nat → R) (init_value : R) (combine_func : R → R → R) :
    get_optimal_thread_count 0 1 1 = some 0 ∧
      size_div 1 0 = none ∧
      parallel_reduce 0 1 1 work_func init_value combine_func = none := by
  refine ⟨by decide, by decide, ?_⟩
  rfl

/-! ## C5 -/

/-- C5, as stated, fails. Addition on `Nat` is associative, yet with two hardware threads,
`total_work = 2`, `threshold = 1`: (a) for `work(s, e) = e - s` and `init_value = 5` the
result is `5 + 1 + 1 = 7`, not `work(0, 2) = 2`; (b) for the constant `work(s, e) = 1` and
`init_value = 0` the result is `0 + 1 + 1 = 2`, not `work(0, 2) = 1`. Moreover (c) for
`threshold = 0` and (d) for a hardware thread count of `0` with `total_work ≥ threshold` the
call divides by zero and returns no value. -/
theorem parallel_reduce_differs_from_single_thread :
    (∀ x y z : Nat, x + y + z = x + (y + z)) ∧
      parallel_reduce 2 2 1 (fun s e => e - s) 5 (fun x y => x + y) = some 7 ∧
      parallel_reduce 2 2 1 (fun s e => e - s) 5 (fun x y => x + y) ≠
        some ((fun s e : Nat => e - s) 0 2) ∧
      parallel_reduce 2 2 1 (fun _ _ => 1) 0 (fun x y => x + y) = some 2 ∧
      parallel_reduce 2 2 1 (fun _ _ => 1) 0 (fun x y => x + y) ≠
        some ((fun _ _ : Nat => 1) 0 2) ∧
      parallel_reduce 2 1 0 (fun s e => e - s) 0 (fun x y => x + y) = none ∧
      parallel_reduce 0 1 1 (fun s e => e - s) 0 (fun x y => x + y) = none := by
  refine ⟨Nat.add_assoc, ?_, ?_, ?_, ?_, ?_, ?_⟩ <;> decide

/-- C5, amended: for every `size_t` value `total_work`, every `threshold ≥ 1`, every hardware
thread count `h ≥ 1`, every associative combine function, every work function that is
range-additive for it (`work(a, c) = combine(work(a, b), work(b, c))` for `a ≤ b ≤ c`) and
every `init_value` with `combine(init_value, work(0, total_work)) = work(0, total_work)`,
`parallel_reduce` returns `work(0, total_work)`, the result of single-threaded execution. -/
theorem parallel_reduce_eq_single_thread {R : Type} (hw total_work threshold : Nat)
    (work_func : Nat → Nat → R) (init_value : R) (combine_func : R → R → R)
    (htw : total_work < SIZE_MOD) (hthr : 1 ≤ threshold) (hhw : 1 ≤ hw)
    (hassoc : ∀ x y z, combine_func (combine_func x y) z = combine_func x (combine_func y z))
    (hadd : ∀ a b c, a ≤ b → b ≤ c →
      work_func a c = combine_func (work_func a b) (work_func b c))
    (hinit : combine_func init_value (work_func 0 total_work) = work_func 0 total_work) :
    parallel_reduce hw total_work threshold work_func init_value combine_func =
      some (work_func 0 total_work) := by
  unfold parallel_reduce
  rw [get_optimal_thread_count_of_pos hw total_work threshold (by omega)]
  simp only
  generalize hn : (if total_work < threshold then 1
    else min hw (max 1 (total_work / threshold))) = n
  have hn1 : 1 ≤ n := by
    rw [← hn]
    split
    · exact le_refl _
    · exact le_min hhw (le_max_left _ _)
  have hnlt : n < SIZE_MOD := by
    have hdiv : total_work / threshold ≤ total_work := Nat.div_le_self _ _
    have h1 : (1 : Nat) < SIZE_MOD := by decide
    rw [← hn]
    split
    · exact h1
    · exact lt_of_le_of_lt (min_le_right _ _) (max_lt h1 (by omega))
  by_cases h1 : n = 1
  · rw [if_pos h1]
  · rw [if_neg h1]
    unfold parallel_reduce_multi
    rw [size_div_of_pos _ _ (by omega)]
    simp only
    rw [store_partials_eq_map, spawn_ranges_map_boundaries _ _ htw hnlt]
    obtain ⟨m, rfl⟩ : ∃ m, n = m + 1 := ⟨n - 1, by omega⟩
    have hfold := foldl_consecutive combine_func work_func init_value
      (fun t => if t < m + 1 then t * (total_work / (m + 1)) else total_work)
      (fun t => boundary_mono total_work (m + 1) t) hassoc hadd m
    simp only [lt_self_iff_false, if_false, Nat.zero_mul, Nat.zero_lt_succ, if_true] at hfold
    rw [← hinit]
    exact congrArg some hfold

theorem parallel_reduce_eq_single_thread_witness :
    (4 : Nat) < SIZE_MOD ∧ 1 ≤ 1 ∧ 1 ≤ 2 ∧
      (∀ x y z : Nat, x + y + z = x + (y + z)) ∧
      (∀ a b c : Nat, a ≤ b → b ≤ c → c - a = (b - a) + (c - b)) ∧
      (0 + (4 - 0) = 4) ∧
      parallel_reduce 2 4 1 (fun s e => e - s) 0 (fun x y => x + y) =
        some ((fun s e : Nat => e - s) 0 4) :=
  ⟨by decide, by decide, by decide, Nat.add_assoc, fun a b c hab hbc => by omega, by decide,
    parallel_reduce_eq_single_thread 2 4 1 (fun s e => e - s) 0 (fun x y => x + y)
      (by decide) (by decide) (by decide) Nat.add_assoc
      (fun a b c hab hbc => by show c - a = (b - a) + (c - b); omega) (by decide)⟩

/-! ## C6 -/

/-- C6: whenever the computed thread count is `1`, `parallel_for` invokes `work_func` exactly
once, with arguments `(0, total_work)`, and creates no thread; this is the case in particular
for `total_work = 0` with any `threshold ≥ 1`, whatever the hardware thread count. -/
theorem parallel_for_single_thread_inline :
    (∀ hw total_work threshold : Nat,
        get_optimal_thread_count hw total_work threshold = some 1 →
        parallel_for hw total_work threshold =
          some { spawned := 0, calls := [(0, total_work)] }) ∧
      (∀ hw threshold : Nat, 1 ≤ threshold →
        get_optimal_thread_count hw 0 threshold = some 1 ∧
        parallel_for hw 0 threshold = some { spawned := 0, calls := [(0, 0)] }) := by
  have hmain : ∀ hw total_work threshold : Nat,
      get_optimal_thread_count hw total_work threshold = some 1 →
      parallel_for hw total_work threshold =
        some { spawned := 0, calls := [(0, total_work)] } := by
    intro hw total_work threshold h
    unfold parallel_for
    rw [h]
    rfl
  refine ⟨hmain, ?_⟩
  intro hw threshold hthr
  have hcount : get_optimal_thread_count hw 0 threshold = some 1 := by
    unfold get_optimal_thread_count
    rw [if_pos (by omega)]
  exact ⟨hcount, hmain hw 0 threshold hcount⟩

theorem parallel_for_single_thread_inline_witness :
    get_optimal_thread_count 4 5 3 = some 1 ∧
      parallel_for 4 5 3 = some { spawned := 0, calls := [(0, 5)] } ∧
      (1 : Nat) ≤ 7 ∧
      parallel_for 0 0 7 = some { spawned := 0, calls := [(0, 0)] } :=
  ⟨by decide, parallel_for_single_thread_inline.1 4 5 3 (by decide), by decide,
    (parallel_for_single_thread_inline.2 0 7 (by decide)).2⟩

end CactusThreading

/-! ## Narrowing conversions -/

theorem to_int8_of_range (x : Int) (hlo : -128 ≤ x) (hhi : x ≤ 127) : to_int8 x = x := by
  unfold to_int8
  omega

theorem to_int32_range (x : Int) : -(2 : Int) ^ 31 ≤ to_int32 x ∧ to_int32 x ≤ 2 ^ 31 - 1 := by
  unfold to_int32
  omega

theorem int8_mul_bounds (x y : Int) (hx : -128 ≤ x ∧ x ≤ 127) (hy : -128 ≤ y ∧ y ≤ 127) :
    -16256 ≤ x * y ∧ x * y ≤ 16384 := by
  have h1 := mul_nonneg (by linarith [hx.1] : (0 : Int) ≤ x + 128)
    (by linarith [hy.1] : (0 : Int) ≤ y + 128)
  have h2 := mul_nonneg (by linarith [hx.2] : (0 : Int) ≤ 127 - x)
    (by linarith [hy.2] : (0 : Int) ≤ 127 - y)
  have h3 := mul_nonneg (by linarith [hx.1] : (0 : Int) ≤ x + 128)
    (by linarith [hy.2] : (0 : Int) ≤ 127 - y)
  have h4 := mul_nonneg (by linarith [hx.2] : (0 : Int) ≤ 127 - x)
    (by linarith [hy.1] : (0 : Int) ≤ y + 128)
  constructor <;> nlinarith [h1, h2, h3, h4]

theorem to_int16_mul (x y : Int) (hx : -128 ≤ x ∧ x ≤ 127) (hy : -128 ≤ y ∧ y ≤ 127) :
    to_int16 (x * y) = x * y := by
  have h := int8_mul_bounds x y hx hy
  unfold to_int16
  omega

/-! ## C7 -/

/-- C7: for every integer `v`, in particular every 32-bit signed one, `clamp_to_int8(v)`
returns `v` when `-128 ≤ v ≤ 127`, `127` when `v > 127` and `-128` when `v < -128`; the result
lies in `[-128, 127]`, and the final narrowing to `int8_t` returns the clamped value
unchanged. -/
theorem clamp_to_int8_int32_saturates (v : Int) :
    clamp_to_int8_int32 v = (if 127 < v then 127 else if v < -128 then -128 else v) ∧
      -128 ≤ clamp_to_int8_int32 v ∧ clamp_to_int8_int32 v ≤ 127 ∧
      to_int8 (max (-128) (min 127 v)) = max (-128) (min 127 v) := by
  unfold clamp_to_int8_int32 to_int8
  refine ⟨?_, ?_, ?_, ?_⟩
  · split_ifs <;> omega
  · omega
  · omega
  · omega

/-! ## C8 -/

/-- Whenever the rounded value fits in `int32_t`, the `float` overload of `clamp_to_int8`
returns the nearest integer (halfway cases away from zero) clamped to `[-128, 127]`. -/
theorem clamp_to_int8_float_in_range (v : ℚ)
    (hlo : -(2 : ℚ) ^ 31 - 1 / 2 < v) (hhi : v < 2 ^ 31 - 1 / 2) :
    clamp_to_int8_float v =
      some (max (-128) (min 127 (if 0 ≤ v then ⌊v + 1 / 2⌋ else -⌊-v + 1 / 2⌋))) := by
  have hround : roundf v = (((if 0 ≤ v then ⌊v + 1 / 2⌋ else -⌊-v + 1 / 2⌋) : Int) : ℚ) := by
    unfold roundf
    split <;> rfl
  have hrange : -(2 : Int) ^ 31 ≤ (if 0 ≤ v then ⌊v + 1 / 2⌋ else -⌊-v + 1 / 2⌋) ∧
      (if 0 ≤ v then ⌊v + 1 / 2⌋ else -⌊-v + 1 / 2⌋) ≤ 2 ^ 31 - 1 := by
    by_cases hv : 0 ≤ v
    · rw [if_pos hv]
      have h1 : (0 : Int) ≤ ⌊v + 1 / 2⌋ := Int.le_floor.mpr (by push_cast; linarith)
      have h2 : ⌊v + 1 / 2⌋ < 2 ^ 31 := Int.floor_lt.mpr (by push_cast; linarith)
      constructor <;> omega
    · rw [if_neg hv]
      have hv2 : v < 0 := lt_of_not_ge hv
      have h1 : (0 : Int) ≤ ⌊-v + 1 / 2⌋ := Int.le_floor.mpr (by push_cast; linarith)
      have h2 : ⌊-v + 1 / 2⌋ < 2 ^ 31 + 1 := Int.floor_lt.mpr (by push_cast; linarith)
      constructor <;> omega
  unfold clamp_to_int8_float
  rw [hround]
  generalize (if 0 ≤ v then ⌊v + 1 / 2⌋ else -⌊-v + 1 / 2⌋) = r at hrange
  have hconv : float_to_int32 (r : ℚ) = some r := by
    unfold float_to_int32
    simp only [Int.floor_intCast, Int.ceil_intCast, ite_self]
    rw [if_pos hrange]
  rw [hconv]
  simp only
  rw [to_int8_of_range _ (le_max_left _ _) (max_le (by decide) (min_le_left _ _))]

/-- C8, behaviour of the code at the failing input `v = 2147483648.0f` (`2^31`, a finite
`float`): `roundf(v)` is `2^31`, which is not an `int32_t` value, so
`static_cast<int32_t>(roundf(value))` is undefined and `clamp_to_int8` has no defined
result, whereas the claim requires `127` for every `v ≥ 127.5`. -/
theorem clamp_to_int8_float_undefined_at_two_pow_31 :
    is_binary32 2147483648 ∧ (127.5 : ℚ) ≤ 2147483648 ∧
      roundf 2147483648 = 2147483648 ∧
      float_to_int32 2147483648 = none ∧
      clamp_to_int8_float 2147483648 = none := by
  refine ⟨⟨8388608, 8, by norm_num, by norm_num, by norm_num, by norm_num⟩, by norm_num,
    ?_, ?_, ?_⟩
  · unfold roundf
    norm_num
  · unfold float_to_int32
    norm_num
  · unfold clamp_to_int8_float roundf float_to_int32
    norm_num

/-! ## C9 -/

/-- Lane `j` of the emulated `accum_i8mm`: the four exact products are added to `acc[j]`
modulo `2^32`; neither the 16-bit products nor the pairwise sums wrap. -/
theorem accum_i8mm_lane (acc : Fin 4 → Int) (a b : Fin 16 → Int)
    (ha : lanes_int8 a) (hb : lanes_int8 b) (j : Fin 4) :
    accum_i8mm acc a b j =
      to_int32 (acc j +
        (a ⟨2 * j.val, by omega⟩ * b ⟨2 * j.val, by omega⟩ +
         a ⟨2 * j.val + 1, by omega⟩ * b ⟨2 * j.val + 1, by omega⟩ +
         a ⟨8 + 2 * j.val, by omega⟩ * b ⟨8 + 2 * j.val, by omega⟩ +
         a ⟨9 + 2 * j.val, by omega⟩ * b ⟨9 + 2 * j.val, by omega⟩)) := by
  have e1 : (⟨2 * j.val + 8, by omega⟩ : Fin 16) = ⟨8 + 2 * j.val, by omega⟩ :=
    Fin.ext (by simp only; omega)
  have e2 : (⟨2 * j.val + 1 + 8, by omega⟩ : Fin 16) = ⟨9 + 2 * j.val, by omega⟩ :=
    Fin.ext (by simp only; omega)
  have p1 := int8_mul_bounds _ _ (ha ⟨2 * j.val, by omega⟩) (hb ⟨2 * j.val, by omega⟩)
  have p2 := int8_mul_bounds _ _ (ha ⟨2 * j.val + 1, by omega⟩) (hb ⟨2 * j.val + 1, by omega⟩)
  have p3 := int8_mul_bounds _ _ (ha ⟨8 + 2 * j.val, by omega⟩) (hb ⟨8 + 2 * j.val, by omega⟩)
  have p4 := int8_mul_bounds _ _ (ha ⟨9 + 2 * j.val, by omega⟩) (hb ⟨9 + 2 * j.val, by omega⟩)
  show to_int32 (to_int32 (acc j +
        to_int32 (to_int16 (a ⟨2 * j.val, _⟩ * b ⟨2 * j.val, _⟩) +
          to_int16 (a ⟨2 * j.val + 1, _⟩ * b ⟨2 * j.val + 1, _⟩))) +
      to_int32 (to_int16 (a ⟨2 * j.val + 8, _⟩ * b ⟨2 * j.val + 8, _⟩) +
        to_int16 (a ⟨2 * j.val + 1 + 8, _⟩ * b ⟨2 * j.val + 1 + 8, _⟩))) = _
  rw [e1, e2]
  rw [to_int16_mul _ _ (ha _) (hb _), to_int16_mul _ _ (ha _) (hb _),
    to_int16_mul _ _ (ha _) (hb _), to_int16_mul _ _ (ha _) (hb _)]
  unfold to_int32
  omega

theorem dot16_expand (a b : Fin 16 → Int) :
    dot16 a b = a 0 * b 0 + a 1 * b 1 + a 2 * b 2 + a 3 * b 3 + a 4 * b 4 + a 5 * b 5 +
      a 6 * b 6 + a 7 * b 7 + a 8 * b 8 + a 9 * b 9 + a 10 * b 10 + a 11 * b 11 +
      a 12 * b 12 + a 13 * b 13 + a 14 * b 14 + a 15 * b 15 := by
  have h : a 0 * b 0 + (a 1 * b 1 + (a 2 * b 2 + (a 3 * b 3 + (a 4 * b 4 + (a 5 * b 5 +
      (a 6 * b 6 + (a 7 * b 7 + (a 8 * b 8 + (a 9 * b 9 + (a 10 * b 10 + (a 11 * b 11 +
      (a 12 * b 12 + (a 13 * b 13 + (a 14 * b 14 + (a 15 * b 15 + 0))))))))))))))) =
      a 0 * b 0 + a 1 * b 1 + a 2 * b 2 + a 3 * b 3 + a 4 * b 4 + a 5 * b 5 +
      a 6 * b 6 + a 7 * b 7 + a 8 * b 8 + a 9 * b 9 + a 10 * b 10 + a 11 * b 11 +
      a 12 * b 12 + a 13 * b 13 + a 14 * b 14 + a 15 * b 15 := by ring
  unfold dot16
  simp only [Fin.sum_univ_succ, Fin.sum_univ_zero]
  exact h

/-- C9: for all 16-lane signed-8-bit vectors `a`, `b` and every accumulator `acc`, lane `j`
of the emulated `accum_i8mm` is `acc[j] + a[2j]*b[2j] + a[2j+1]*b[2j+1] + a[8+2j]*b[8+2j] +
a[9+2j]*b[9+2j]` in 32-bit arithmetic, every result lane is an `int32_t` value, and the sum
of the four result lanes is congruent modulo `2^32` to the sum of the lanes of `acc` plus the
dot product `Σ a[i]*b[i]`, `i = 0..15`. -/
theorem accum_i8mm_emulation_dot (acc : Fin 4 → Int) (a b : Fin 16 → Int)
    (ha : lanes_int8 a) (hb : lanes_int8 b) :
    (∀ j : Fin 4, accum_i8mm acc a b j =
        to_int32 (acc j +
          (a ⟨2 * j.val, by omega⟩ * b ⟨2 * j.val, by omega⟩ +
           a ⟨2 * j.val + 1, by omega⟩ * b ⟨2 * j.val + 1, by omega⟩ +
           a ⟨8 + 2 * j.val, by omega⟩ * b ⟨8 + 2 * j.val, by omega⟩ +
           a ⟨9 + 2 * j.val, by omega⟩ * b ⟨9 + 2 * j.val, by omega⟩))) ∧
      lanes_int32 (accum_i8mm acc a b) ∧
      lane_sum (accum_i8mm acc a b) % 2 ^ 32 = (lane_sum acc + dot16 a b) % 2 ^ 32 := by
  refine ⟨accum_i8mm_lane acc a b ha hb, ?_, ?_⟩
  · intro j
    rw [accum_i8mm_lane acc a b ha hb j]
    exact to_int32_range _
  · unfold lane_sum
    rw [accum_i8mm_lane acc a b ha hb 0, accum_i8mm_lane acc a b ha hb 1,
      accum_i8mm_lane acc a b ha hb 2, accum_i8mm_lane acc a b ha hb 3, dot16_expand]
    show (to_int32 (acc 0 + (a 0 * b 0 + a 1 * b 1 + a 8 * b 8 + a 9 * b 9)) +
          to_int32 (acc 1 + (a 2 * b 2 + a 3 * b 3 + a 10 * b 10 + a 11 * b 11)) +
          to_int32 (acc 2 + (a 4 * b 4 + a 5 * b 5 + a 12 * b 12 + a 13 * b 13)) +
          to_int32 (acc 3 + (a 6 * b 6 + a 7 * b 7 + a 14 * b 14 + a 15 * b 15))) % 2 ^ 32 = _
    unfold to_int32
    omega

theorem accum_i8mm_emulation_dot_witness :
    lanes_int8 (fun _ : Fin 16 => (-128 : Int)) ∧ lanes_int8 (fun _ : Fin 16 => (-128 : Int)) ∧
      lanes_int32 (accum_i8mm (fun _ => 2 ^ 31 - 1) (fun _ => -128) (fun _ => -128)) ∧
      lane_sum (accum_i8mm (fun _ => 2 ^ 31 - 1) (fun _ => -128) (fun _ => -128)) % 2 ^ 32 =
        (lane_sum (fun _ => 2 ^ 31 - 1) + dot16 (fun _ => -128) (fun _ => -128)) % 2 ^ 32 :=
  ⟨fun _ => ⟨by norm_num, by norm_num⟩, fun _ => ⟨by norm_num, by norm_num⟩,
    (accum_i8mm_emulation_dot (fun _ => 2 ^ 31 - 1) (fun _ => -128) (fun _ => -128)
      (fun _ => ⟨by norm_num, by norm_num⟩) (fun _ => ⟨by norm_num, by norm_num⟩)).2⟩

/-! ## C10 -/

namespace engine

/-- C10: `KVCache::reset()` sets `current_seq_len` to `0`, so `is_empty()` holds afterwards,
and leaves `max_seq_len`, `precision`, `element_size` and the number and sizes of the
per-layer key and value buffers unchanged; `Model::reset_cache()` applies `reset()` to the
model's cache and changes no other member. -/
theorem reset_empties_and_keeps_buffers {Precision Rest : Type}
    (c : KVCache Precision) (m : Model Precision Rest) :
    c.reset.current_seq_len = 0 ∧ c.reset.is_empty = true ∧
      c.reset.max_seq_len = c.max_seq_len ∧ c.reset.precision = c.precision ∧
      c.reset.element_size = c.element_size ∧
      c.reset.keys.length = c.keys.length ∧ c.reset.values.length = c.values.length ∧
      c.reset.keys.map List.length = c.keys.map List.length ∧
      c.reset.values.map List.length = c.values.map List.length ∧
      m.reset_cache.kv_cache_ = m.kv_cache_.reset ∧
      m.reset_cache.kv_cache_.is_empty = true ∧
      m.reset_cache.rest = m.rest :=
  ⟨rfl, rfl, rfl, rfl, rfl, rfl, rfl, rfl, rfl, rfl, rfl, rfl⟩

end engine

/-! ## C11 -/

namespace engine

/-- C11: for every `KVCache` state, `is_empty()` returns true exactly when
`current_seq_len == 0` (the Empty state); a default-constructed `KVCache` is Empty, has
`max_seq_len = 2048`, and satisfies `0 ≤ current_seq_len ≤ max_seq_len`. -/
theorem is_empty_iff_and_default_constructed {Precision : Type}
    (c : KVCache Precision) (precision : Precision) :
    (c.is_empty = true ↔ c.current_seq_len = 0) ∧
      (KVCache.default_constructed precision).is_empty = true ∧
      (KVCache.default_constructed precision).current_seq_len = 0 ∧
      (KVCache.default_constructed precision).max_seq_len = 2048 ∧
      0 ≤ (KVCache.default_constructed precision).current_seq_len ∧
      (KVCache.default_constructed precision).current_seq_len ≤
        (KVCache.default_constructed precision).max_seq_len := by
  refine ⟨?_, rfl, rfl, rfl, Nat.zero_le _, ?_⟩
  · unfold KVCache.is_empty
    exact beq_iff_eq
  · show (0 : Nat) ≤ 2048
    decide

end engine

namespace CactusThreading

/-! ## C12 -/

/-- For `threshold ≥ 1` and a hardware thread count `h ≥ 1` the thread count is defined, at
least `1`, at most `h`, and at most `max(1, total_work)`. -/
theorem get_optimal_thread_count_bounds (hw total_work threshold : Nat)
    (hthr : 1 ≤ threshold) (hhw : 1 ≤ hw) :
    ∃ n, get_optimal_thread_count hw total_work threshold = some n ∧
      1 ≤ n ∧ n ≤ hw ∧ n ≤ max 1 total_work := by
  refine ⟨_, get_optimal_thread_count_of_pos hw total_work threshold (by omega), ?_, ?_, ?_⟩
  · split
    · exact le_refl _
    · exact le_min hhw (le_max_left _ _)
  · split
    · exact hhw
    · exact min_le_left _ _
  · have hdiv : total_work / threshold ≤ total_work := Nat.div_le_self _ _
    split
    · exact le_max_left _ _
    · exact le_trans (min_le_right _ _) (max_le_max (le_refl _) hdiv)

/-- On the multi-threaded path (`n ≥ 2`) `parallel_for` creates `n` threads and hands them
the ranges of `spawn_ranges`. -/
theorem parallel_for_of_two_le (hw total_work threshold n : Nat)
    (hcount : get_optimal_thread_count hw total_work threshold = some n) (hn : 2 ≤ n) :
    parallel_for hw total_work threshold =
      some { spawned := n, calls := spawn_ranges total_work n (total_work / n) } := by
  unfold parallel_for
  rw [hcount]
  simp only
  rw [if_neg (by omega)]
  unfold parallel_for_multi
  rw [size_div_of_pos _ _ (by omega)]
  simp only [spawn_ranges_length]

/-- C12: for every `size_t` value `total_work`, every `threshold ≥ 1` and every hardware
thread count `h ≥ 1`, `get_optimal_thread_count` returns `n` with `1 ≤ n ≤ h`; hence the
division `total_work / num_threads` is defined, `num_threads - 1` does not wrap around, and
both `parallel_for` and `parallel_reduce` complete with a defined result. -/
theorem thread_count_positive_no_zero_division {R : Type} (hw total_work threshold : Nat)
    (work_func : Nat → Nat → R) (init_value : R) (combine_func : R → R → R)
    (htw : total_work < SIZE_MOD) (hthr : 1 ≤ threshold) (hhw : 1 ≤ hw) :
    ∃ n, get_optimal_thread_count hw total_work threshold = some n ∧
      1 ≤ n ∧ n ≤ hw ∧
      size_div total_work n = some (total_work / n) ∧
      size_sub n 1 + 1 = n ∧
      (parallel_for hw total_work threshold).isSome = true ∧
      (parallel_reduce hw total_work threshold work_func init_value combine_func).isSome
        = true := by
  obtain ⟨n, hcount, hn1, hnhw, hnle⟩ :=
    get_optimal_thread_count_bounds hw total_work threshold hthr hhw
  have hnlt : n < SIZE_MOD := by
    have h1 : (1 : Nat) < SIZE_MOD := by decide
    exact lt_of_le_of_lt hnle (max_lt h1 htw)
  refine ⟨n, hcount, hn1, hnhw, size_div_of_pos _ _ (by omega), ?_, ?_, ?_⟩
  · rw [size_sub_of_le _ _ hn1 hnlt]
    omega
  · by_cases h1 : n = 1
    · unfold parallel_for
      rw [hcount]
      simp only
      rw [if_pos h1]
      rfl
    · rw [parallel_for_of_two_le hw total_work threshold n hcount (by omega)]
      rfl
  · unfold parallel_reduce
    rw [hcount]
    simp only
    by_cases h1 : n = 1
    · rw [if_pos h1]
      rfl
    · rw [if_neg h1]
      unfold parallel_reduce_multi
      rw [size_div_of_pos _ _ (by omega)]
      rfl

theorem thread_count_positive_no_zero_division_witness :
    (10 : Nat) < SIZE_MOD ∧ 1 ≤ 3 ∧ 1 ≤ 4 ∧
      ∃ n, get_optimal_thread_count 4 10 3 = some n ∧
        1 ≤ n ∧ n ≤ 4 ∧
        size_div 10 n = some (10 / n) ∧
        size_sub n 1 + 1 = n ∧
        (parallel_for 4 10 3).isSome = true ∧
        (parallel_reduce 4 10 3 (fun s e => e - s) 0 (fun x y => x + y)).isSome = true :=
  ⟨by decide, by decide, by decide,
    thread_count_positive_no_zero_division 4 10 3 (fun s e => e - s) 0 (fun x y => x + y)
      (by decide) (by decide) (by decide)⟩

/-! ## Recording the invocations of the work function -/

/-- Recording the invocations of the work function: when `work_func(s, e)` is the one-element
list `[(s, e)]` and the results are combined by concatenation, the fold over a list of ranges
returns those ranges, in order, after the initial list. -/
theorem foldl_record_ranges (l acc : List (Nat × Nat)) :
    (l.map (fun r => [(r.1, r.2)])).foldl (fun x y => x ++ y) acc = acc ++ l := by
  induction l generalizing acc with
  | nil => simp
  | cons r rs ih =>
    simp only [List.map_cons, List.foldl_cons]
    rw [ih]
    simp

/-! ## C13 -/

/-- C13: for every `size_t` value `total_work` and every `threshold ≥ 1`, whenever the
computed thread count `n` is at least `2` (which requires a hardware thread count `≥ 2`),
`n * threshold ≤ total_work` and `total_work / n ≥ threshold`; `parallel_for` creates `n`
threads on the ranges `rs`; `parallel_reduce` applies `work_func` to the same ranges `rs`
(for every work function, initial value and combine function it returns the fold over
`work_func` on `rs`, and with a work function that records its arguments it returns `rs`
itself); and every range of `rs`, the last included, holds at least `threshold` indices, so
none is empty. -/
theorem multi_thread_ranges_hold_threshold (hw total_work threshold n : Nat)
    (htw : total_work < SIZE_MOD) (hthr : 1 ≤ threshold)
    (hcount : get_optimal_thread_count hw total_work threshold = some n) (hn : 2 ≤ n) :
    n * threshold ≤ total_work ∧ threshold ≤ total_work / n ∧
      ∃ rs, parallel_for hw total_work threshold = some { spawned := n, calls := rs } ∧
        (∀ (R : Type) (work_func : Nat → Nat → R) (init_value : R)
            (combine_func : R → R → R),
          parallel_reduce hw total_work threshold work_func init_value combine_func =
            some ((rs.map (fun r => work_func r.1 r.2)).foldl combine_func init_value)) ∧
        parallel_reduce hw total_work threshold (fun s e => [(s, e)]) []
          (fun x y => x ++ y) = some rs ∧
        rs.length = n ∧
        ∀ (t : Nat) (r : Nat × Nat), rs[t]? = some r → r.1 + threshold ≤ r.2 ∧ r.1 < r.2 := by
  have hmul : n * threshold ≤ total_work := by
    rw [get_optimal_thread_count_of_pos hw total_work threshold (by omega)] at hcount
    have hq : n ≤ total_work / threshold := by
      by_cases hlt : total_work < threshold
      · rw [if_pos hlt] at hcount
        cases hcount
        omega
      · rw [if_neg hlt] at hcount
        cases hcount
        have h2 : min hw (max 1 (total_work / threshold)) ≤ max 1 (total_work / threshold) :=
          min_le_right _ _
        rcases le_max_iff.mp (le_trans hn h2) with h | h
        · omega
        · have hmax : max 1 (total_work / threshold) = total_work / threshold :=
            max_eq_right (by omega)
          rw [hmax]
          exact min_le_right _ _
    exact le_trans (Nat.mul_le_mul_right _ hq) (Nat.div_mul_le_self _ _)
  have hdiv : threshold ≤ total_work / n :=
    (Nat.le_div_iff_mul_le (by omega)).mpr (by rw [Nat.mul_comm]; exact hmul)
  have hnle : n ≤ total_work := le_trans (Nat.le_mul_of_pos_right n (by omega)) hmul
  have hle : n * (total_work / n) ≤ total_work := Nat.mul_div_le total_work n
  have hreduce : ∀ (R : Type) (work_func : Nat → Nat → R) (init_value : R)
      (combine_func : R → R → R),
      parallel_reduce hw total_work threshold work_func init_value combine_func =
        some (((spawn_ranges total_work n (total_work / n)).map
          (fun r => work_func r.1 r.2)).foldl combine_func init_value) := by
    intro R work_func init_value combine_func
    unfold parallel_reduce
    rw [hcount]
    simp only
    rw [if_neg (by omega)]
    unfold parallel_reduce_multi
    rw [size_div_of_pos _ _ (by omega)]
    simp only [store_partials_eq_map]
  refine ⟨hmul, hdiv, _, parallel_for_of_two_le hw total_work threshold n hcount hn,
    hreduce, ?_, spawn_ranges_length _ _ _, ?_⟩
  · rw [hreduce, foldl_record_ranges, List.nil_append]
  intro t r hr
  rw [spawn_ranges_boundaries _ _ _ htw (by omega)] at hr
  by_cases ht : t < n
  · rw [if_pos ht, if_pos ht] at hr
    by_cases hlast : t + 1 < n
    · rw [if_pos hlast] at hr
      cases hr
      show t * (total_work / n) + threshold ≤ (t + 1) * (total_work / n) ∧
        t * (total_work / n) < (t + 1) * (total_work / n)
      rw [Nat.add_mul, Nat.one_mul]
      omega
    · rw [if_neg hlast] at hr
      cases hr
      show t * (total_work / n) + threshold ≤ total_work ∧ t * (total_work / n) < total_work
      have ht1 : t + 1 = n := by omega
      have hexp : (t + 1) * (total_work / n) = t * (total_work / n) + total_work / n := by
        rw [Nat.add_mul, Nat.one_mul]
      rw [ht1] at hexp
      omega
  · rw [if_neg ht] at hr
    cases hr

theorem multi_thread_ranges_hold_threshold_witness :
    (10 : Nat) < SIZE_MOD ∧ 1 ≤ 3 ∧ get_optimal_thread_count 4 10 3 = some 3 ∧ 2 ≤ 3 ∧
      (3 * 3 ≤ 10 ∧ 3 ≤ 10 / 3 ∧
        ∃ rs, parallel_for 4 10 3 = some { spawned := 3, calls := rs } ∧
          (∀ (R : Type) (work_func : Nat → Nat → R) (init_value : R)
              (combine_func : R → R → R),
            parallel_reduce 4 10 3 work_func init_value combine_func =
              some ((rs.map (fun r => work_func r.1 r.2)).foldl combine_func init_value)) ∧
          parallel_reduce 4 10 3 (fun s e => [(s, e)]) [] (fun x y => x ++ y) = some rs ∧
          rs.length = 3 ∧
          ∀ (t : Nat) (r : Nat × Nat), rs[t]? = some r → r.1 + 3 ≤ r.2 ∧ r.1 < r.2) :=
  ⟨by decide, by decide, by decide, by decide,
    multi_thread_ranges_hold_threshold 4 10 3 3 (by decide) (by decide) (by decide)
      (by decide)⟩

/-! ## C14 -/

/-- For `threshold ≥ 1` and `h ≥ 1` the computed thread count is `1` exactly when `h = 1` or
`total_work < 2 * threshold`. -/
theorem thread_count_eq_one_iff (hw total_work threshold : Nat)
    (hthr : 1 ≤ threshold) (hhw : 1 ≤ hw) :
    get_optimal_thread_count hw total_work threshold = some 1 ↔
      hw = 1 ∨ total_work < 2 * threshold := by
  rw [get_optimal_thread_count_of_pos hw total_work threshold (by omega)]
  have hq : total_work / threshold < 2 ↔ total_work < 2 * threshold :=
    Nat.div_lt_iff_lt_mul (by omega)
  by_cases hlt : total_work < threshold
  · rw [if_pos hlt]
    constructor
    · intro _
      right
      omega
    · intro _
      rfl
  · rw [if_neg hlt]
    constructor
    · intro h
      have h1 : min hw (max 1 (total_work / threshold)) = 1 := Option.some.inj h
      rcases Nat.lt_or_ge (total_work / threshold) 2 with hlt2 | hge2
      · right
        exact hq.mp hlt2
      · left
        rw [max_eq_right (by omega)] at h1
        rcases min_choice hw (total_work / threshold) with hc | hc
        · rw [hc] at h1
          exact h1
        · rw [hc] at h1
          omega
    · rintro (h | h)
      · subst h
        congr 1
        exact min_eq_left (le_max_left _ _)
      · have hlt2 := hq.mpr h
        congr 1
        rw [max_eq_left (by omega)]
        exact min_eq_right hhw

/-- C14: for every `total_work`, every `threshold ≥ 1` and every hardware thread count
`h ≥ 1`, each of the following holds if and only if `h = 1` or `total_work < 2 * threshold`:
the thread count is `1`; `parallel_for` runs `work_func(0, total_work)` inline without
creating a thread; `parallel_reduce` returns `work_func(0, total_work)` for every work
function, initial value and combine function; `parallel_reduce` with a work function that
records its arguments makes the single invocation `(0, total_work)`. For
`total_work < threshold` both functions take the inline path for every value of the hardware
thread count, `0` included. -/
theorem inline_path_iff (hw total_work threshold : Nat)
    (hthr : 1 ≤ threshold) (hhw : 1 ≤ hw) :
    (get_optimal_thread_count hw total_work threshold = some 1 ↔
        hw = 1 ∨ total_work < 2 * threshold) ∧
      (parallel_for hw total_work threshold =
          some { spawned := 0, calls := [(0, total_work)] } ↔
        hw = 1 ∨ total_work < 2 * threshold) ∧
      ((∀ (R : Type) (work_func : Nat → Nat → R) (init_value : R)
            (combine_func : R → R → R),
          parallel_reduce hw total_work threshold work_func init_value combine_func =
            some (work_func 0 total_work)) ↔
        hw = 1 ∨ total_work < 2 * threshold) ∧
      (parallel_reduce hw total_work threshold (fun s e => [(s, e)]) []
          (fun x y => x ++ y) = some [(0, total_work)] ↔
        hw = 1 ∨ total_work < 2 * threshold) ∧
      (∀ h : Nat, total_work < threshold →
        get_optimal_thread_count h total_work threshold = some 1 ∧
        parallel_for h total_work threshold =
          some { spawned := 0, calls := [(0, total_work)] } ∧
        ∀ (R : Type) (work_func : Nat → Nat → R) (init_value : R)
            (combine_func : R → R → R),
          parallel_reduce h total_work threshold work_func init_value combine_func =
            some (work_func 0 total_work)) := by
  have hinline : ∀ h : Nat, get_optimal_thread_count h total_work threshold = some 1 →
      parallel_for h total_work threshold =
        some { spawned := 0, calls := [(0, total_work)] } := by
    intro h hc
    unfold parallel_for
    rw [hc]
    rfl
  have hiff := thread_count_eq_one_iff hw total_work threshold hthr hhw
  have hone : ∀ (h : Nat) (R : Type) (work_func : Nat → Nat → R) (init_value : R)
      (combine_func : R → R → R),
      get_optimal_thread_count h total_work threshold = some 1 →
      parallel_reduce h total_work threshold work_func init_value combine_func =
        some (work_func 0 total_work) := by
    intro h R work_func init_value combine_func hc
    unfold parallel_reduce
    rw [hc]
    rfl
  have hrecord : parallel_reduce hw total_work threshold (fun s e => [(s, e)]) []
      (fun x y => x ++ y) = some [(0, total_work)] →
      hw = 1 ∨ total_work < 2 * threshold := by
    intro hpr
    obtain ⟨n, hcount, hn1, _, _⟩ :=
      get_optimal_thread_count_bounds hw total_work threshold hthr hhw
    by_cases h1 : n = 1
    · subst h1
      exact hiff.mp hcount
    · unfold parallel_reduce at hpr
      rw [hcount] at hpr
      simp only at hpr
      rw [if_neg h1] at hpr
      unfold parallel_reduce_multi at hpr
      rw [size_div_of_pos _ _ (by omega)] at hpr
      simp only [store_partials_eq_map] at hpr
      rw [foldl_record_ranges, List.nil_append] at hpr
      have hlen := congrArg List.length (Option.some.inj hpr)
      rw [spawn_ranges_length] at hlen
      simp only [List.length_singleton] at hlen
      omega
  refine ⟨hiff, ⟨?_, fun h => hinline hw (hiff.mpr h)⟩,
    ⟨fun hall => hrecord (hall _ _ _ _),
      fun h R work_func init_value combine_func =>
        hone hw R work_func init_value combine_func (hiff.mpr h)⟩,
    ⟨hrecord, fun h => hone hw _ _ _ _ (hiff.mpr h)⟩,
    ?_⟩
  · intro hpf
    obtain ⟨n, hcount, hn1, _, _⟩ :=
      get_optimal_thread_count_bounds hw total_work threshold hthr hhw
    by_cases h1 : n = 1
    · subst h1
      exact hiff.mp hcount
    · rw [parallel_for_of_two_le hw total_work threshold n hcount (by omega)] at hpf
      have hsp := congrArg Dispatch.spawned (Option.some.inj hpf)
      simp only at hsp
      omega
  · intro h hlt
    have hc : get_optimal_thread_count h total_work threshold = some 1 := by
      unfold get_optimal_thread_count
      rw [if_pos hlt]
    exact ⟨hc, hinline h hc, fun R work_func init_value combine_func =>
      hone h R work_func init_value combine_func hc⟩

theorem inline_path_iff_witness :
    (1 : Nat) ≤ 3 ∧ 1 ≤ 4 ∧
      ((get_optimal_thread_count 4 5 3 = some 1 ↔ 4 = 1 ∨ 5 < 2 * 3) ∧
        (parallel_for 4 5 3 = some { spawned := 0, calls := [(0, 5)] } ↔
          4 = 1 ∨ 5 < 2 * 3) ∧
        ((∀ (R : Type) (work_func : Nat → Nat → R) (init_value : R)
              (combine_func : R → R → R),
            parallel_reduce 4 5 3 work_func init_value combine_func =
              some (work_func 0 5)) ↔
          4 = 1 ∨ 5 < 2 * 3) ∧
        (parallel_reduce 4 5 3 (fun s e => [(s, e)]) [] (fun x y => x ++ y) =
            some [(0, 5)] ↔
          4 = 1 ∨ 5 < 2 * 3) ∧
        (∀ h : Nat, 5 < 3 →
          get_optimal_thread_count h 5 3 = some 1 ∧
          parallel_for h 5 3 = some { spawned := 0, calls := [(0, 5)] } ∧
          ∀ (R : Type) (work_func : Nat → Nat → R) (init_value : R)
              (combine_func : R → R → R),
            parallel_reduce h 5 3 work_func init_value combine_func =
              some (work_func 0 5))) :=
  ⟨by decide, by decide, inline_path_iff 4 5 3 (by decide) (by decide)⟩

/-! ## C15 -/

/-- Folding `combine` from a left identity `init` over the results of a range-additive `work`
on consecutive intervals `[b t, b (t+1))`, `t ≤ n`, gives `work (b 0) (b (n+1))`. -/
theorem foldl_consecutive_left_id {R : Type} (combine : R → R → R) (work : Nat → Nat → R)
    (init : R) (b : Nat → Nat) (hmono : ∀ t, b t ≤ b (t + 1))
    (hid : ∀ x, combine init x = x)
    (hadd : ∀ x y z, x ≤ y → y ≤ z → work x z = combine (work x y) (work y z))
    (n : Nat) :
    ((List.range (n + 1)).map (fun t => work (b t) (b (t + 1)))).foldl combine init =
      work (b 0) (b (n + 1)) := by
  have hmono2 : ∀ t, b 0 ≤ b t := by
    intro t
    induction t with
    | zero => exact le_refl _
    | succ k ih => exact le_trans ih (hmono k)
  induction n with
  | zero => exact hid _
  | succ k ih =>
    rw [List.range_succ, List.map_append, List.foldl_append, ih]
    simp only [List.map_cons, List.map_nil, List.foldl_cons, List.foldl_nil]
    rw [← hadd _ _ _ (hmono2 (k + 1)) (hmono (k + 1))]

/-- For `threshold ≥ 1` and `h ≥ 1`, `parallel_reduce` returns either `work(0, total_work)`
(inline path) or the left fold of the per-range results over the `m + 1 ≥ 2` consecutive
ranges given by the boundaries. -/
theorem parallel_reduce_cases {R : Type} (hw total_work threshold : Nat)
    (work_func : Nat → Nat → R) (init_value : R) (combine_func : R → R → R)
    (htw : total_work < SIZE_MOD) (hthr : 1 ≤ threshold) (hhw : 1 ≤ hw) :
    parallel_reduce hw total_work threshold work_func init_value combine_func =
        some (work_func 0 total_work) ∨
      ∃ m, parallel_reduce hw total_work threshold work_func init_value combine_func =
        some (((List.range (m + 1)).map (fun t =>
          work_func (if t < m + 1 then t * (total_work / (m + 1)) else total_work)
            (if t + 1 < m + 1 then (t + 1) * (total_work / (m + 1)) else total_work))).foldl
          combine_func init_value) := by
  obtain ⟨n, hcount, hn1, _, hnle⟩ :=
    get_optimal_thread_count_bounds hw total_work threshold hthr hhw
  have hnlt : n < SIZE_MOD := by
    have h1 : (1 : Nat) < SIZE_MOD := by decide
    exact lt_of_le_of_lt hnle (max_lt h1 htw)
  unfold parallel_reduce
  rw [hcount]
  simp only
  by_cases h1 : n = 1
  · left
    rw [if_pos h1]
  · right
    obtain ⟨m, rfl⟩ : ∃ m, n = m + 1 := ⟨n - 1, by omega⟩
    refine ⟨m, ?_⟩
    rw [if_neg h1]
    unfold parallel_reduce_multi
    rw [size_div_of_pos _ _ (by omega)]
    simp only
    rw [store_partials_eq_map, spawn_ranges_map_boundaries _ _ htw hnlt]

/-- C15: for every `size_t` value `total_work`, every `threshold ≥ 1` and every hardware
thread count `h ≥ 1`, if `init_value` is a left identity of `combine` and the work function
is range-additive (`work(a, c) = combine(work(a, b), work(b, c))` for `a ≤ b ≤ c`), then
`parallel_reduce` returns `work(0, total_work)`; hence the result is the same for every
hardware thread count `h2 ≥ 1`, that is, for every thread count. -/
theorem parallel_reduce_left_identity_additive {R : Type} (hw total_work threshold : Nat)
    (work_func : Nat → Nat → R) (init_value : R) (combine_func : R → R → R)
    (htw : total_work < SIZE_MOD) (hthr : 1 ≤ threshold) (hhw : 1 ≤ hw)
    (hid : ∀ x, combine_func init_value x = x)
    (hadd : ∀ a b c, a ≤ b → b ≤ c →
      work_func a c = combine_func (work_func a b) (work_func b c)) :
    parallel_reduce hw total_work threshold work_func init_value combine_func =
        some (work_func 0 total_work) ∧
      ∀ h2 : Nat, 1 ≤ h2 →
        parallel_reduce h2 total_work threshold work_func init_value combine_func =
          parallel_reduce hw total_work threshold work_func init_value combine_func := by
  have hmain : ∀ h : Nat, 1 ≤ h →
      parallel_reduce h total_work threshold work_func init_value combine_func =
        some (work_func 0 total_work) := by
    intro h hh
    rcases parallel_reduce_cases h total_work threshold work_func init_value combine_func
      htw hthr hh with hc | ⟨m, hc⟩
    · exact hc
    · rw [hc]
      have hfold := foldl_consecutive_left_id combine_func work_func init_value
        (fun t => if t < m + 1 then t * (total_work / (m + 1)) else total_work)
        (fun t => boundary_mono total_work (m + 1) t) hid hadd m
      simp only [lt_self_iff_false, if_false, Nat.zero_mul, Nat.zero_lt_succ, if_true]
        at hfold
      exact congrArg some hfold
  refine ⟨hmain hw hhw, ?_⟩
  intro h2 hh2
  rw [hmain h2 hh2, hmain hw hhw]

theorem parallel_reduce_left_identity_additive_witness :
    (4 : Nat) < SIZE_MOD ∧ 1 ≤ 1 ∧ 1 ≤ 2 ∧
      (∀ x : Nat, 0 + x = x) ∧
      (∀ a b c : Nat, a ≤ b → b ≤ c → c - a = (b - a) + (c - b)) ∧
      (parallel_reduce 2 4 1 (fun s e => e - s) 0 (fun x y => x + y) =
          some ((fun s e : Nat => e - s) 0 4) ∧
        ∀ h2 : Nat, 1 ≤ h2 →
          parallel_reduce h2 4 1 (fun s e => e - s) 0 (fun x y => x + y) =
            parallel_reduce 2 4 1 (fun s e => e - s) 0 (fun x y => x + y)) :=
  ⟨by decide, by decide, by decide, Nat.zero_add, fun a b c hab hbc => by omega,
    parallel_reduce_left_identity_additive 2 4 1 (fun s e => e - s) 0 (fun x y => x + y)
      (by decide) (by decide) (by decide) Nat.zero_add
      (fun a b c hab hbc => by show c - a = (b - a) + (c - b); omega)⟩

/-! ## C16 -/

theorem all_defined_map {α β : Type} (g : α → Option β) (f : α → β) (l : List α)
    (h : ∀ x, x ∈ l → g x = some (f x)) :
    all_defined (l.map g) = some (l.map f) := by
  induction l with
  | nil => rfl
  | cons x xs ih =>
    have hx : g x = some (f x) := h x (List.mem_cons_self _ _)
    have hxs : all_defined (xs.map g) = some (xs.map f) :=
      ih (fun y hy => h y (List.mem_cons_of_mem _ hy))
    simp only [List.map_cons, hx, all_defined, hxs]

theorem index_pair_of_pos (inner_size work_idx : Nat) (hpos : 0 < inner_size) :
    index_pair inner_size work_idx = some (work_idx / inner_size, work_idx % inner_size) := by
  unfold index_pair size_div size_mod
  rw [if_neg (by omega), if_neg (by omega)]

theorem lambda_2d_of_pos (inner_size start_idx end_idx : Nat) (hpos : 0 < inner_size) :
    lambda_2d inner_size start_idx end_idx =
      some ((List.range' start_idx (end_idx - start_idx)).map
        (fun k => (k / inner_size, k % inner_size))) := by
  unfold lambda_2d
  exact all_defined_map _ _ _ (fun k _ => index_pair_of_pos inner_size k hpos)

/-- Consecutive index intervals `[b t, b (t+1))`, `t < n`, listed one after the other, are
the interval `[b 0, b n)`. -/
theorem flatten_consecutive_ranges (b : Nat → Nat) (hmono : ∀ t, b t ≤ b (t + 1)) (n : Nat) :
    ((List.range n).map (fun t => List.range' (b t) (b (t + 1) - b t))).flatten =
      List.range' (b 0) (b n - b 0) := by
  have hmono2 : ∀ t, b 0 ≤ b t := by
    intro t
    induction t with
    | zero => exact le_refl _
    | succ k ih => exact le_trans ih (hmono k)
  induction n with
  | zero => simp
  | succ k ih =>
    rw [List.range_succ, List.map_append, List.flatten_append, ih]
    simp only [List.map_cons, List.map_nil, List.flatten_cons, List.flatten_nil,
      List.append_nil]
    have h0 := hmono2 k
    have h1 := hmono k
    have hs : b k = b 0 + 1 * (b k - b 0) := by omega
    have hlen : b (k + 1) - b 0 = (b (k + 1) - b k) + (b k - b 0) := by omega
    rw [hlen, ← List.range'_append (b 0) (b k - b 0) (b (k + 1) - b k) 1, ← hs]

/-- For `threshold ≥ 1` and `h ≥ 1`, the index ranges passed to the work function by
`parallel_for`, taken in thread order, enumerate `0, 1, ..., total_work - 1`. -/
theorem parallel_for_index_cover (hw total_work threshold : Nat)
    (htw : total_work < SIZE_MOD) (hthr : 1 ≤ threshold) (hhw : 1 ≤ hw) :
    ∃ d, parallel_for hw total_work threshold = some d ∧
      (d.calls.map (fun r => List.range' r.1 (r.2 - r.1))).flatten =
        List.range total_work := by
  obtain ⟨n, hcount, hn1, _, hnle⟩ :=
    get_optimal_thread_count_bounds hw total_work threshold hthr hhw
  have hnlt : n < SIZE_MOD := by
    have h1 : (1 : Nat) < SIZE_MOD := by decide
    exact lt_of_le_of_lt hnle (max_lt h1 htw)
  by_cases h1 : n = 1
  · refine ⟨{ spawned := 0, calls := [(0, total_work)] }, ?_, ?_⟩
    · unfold parallel_for
      rw [hcount]
      simp only
      rw [if_pos h1]
    · simp [List.range_eq_range']
  · refine ⟨_, parallel_for_of_two_le hw total_work threshold n hcount (by omega), ?_⟩
    simp only
    rw [spawn_ranges_map_boundaries total_work n htw hnlt
      (fun s e => List.range' s (e - s))]
    have hflat := flatten_consecutive_ranges
      (fun t => if t < n then t * (total_work / n) else total_work)
      (fun t => boundary_mono total_work n t) n
    simp only [lt_self_iff_false, if_false] at hflat
    rw [if_pos (by omega), Nat.zero_mul, Nat.sub_zero] at hflat
    exact hflat.trans (List.range_eq_range' _).symm

/-- The pairs `(k / inner, k % inner)` for `k < outer * inner` are pairwise distinct. -/
theorem nodup_index_pairs (outer_size inner_size : Nat) :
    ((List.range (outer_size * inner_size)).map
        (fun k => (k / inner_size, k % inner_size))).Nodup := by
  apply List.Nodup.map_on _ (List.nodup_range _)
  intro x _ y _ hxy
  have h1 : x / inner_size = y / inner_size := congrArg Prod.fst hxy
  have h2 : x % inner_size = y % inner_size := congrArg Prod.snd hxy
  rw [← Nat.div_add_mod x inner_size, ← Nat.div_add_mod y inner_size, h1, h2]

/-- The pairs `(k / inner, k % inner)` for `k < outer * inner` are exactly the pairs `(o, i)`
with `o < outer` and `i < inner`. -/
theorem mem_index_pairs (outer_size inner_size : Nat) (p : Nat × Nat) :
    p ∈ (List.range (outer_size * inner_size)).map
        (fun k => (k / inner_size, k % inner_size)) ↔
      p.1 < outer_size ∧ p.2 < inner_size := by
  rw [List.mem_map]
  constructor
  · rintro ⟨k, hk, rfl⟩
    rw [List.mem_range] at hk
    have hpos : 0 < inner_size := by
      rcases Nat.eq_zero_or_pos inner_size with hz | hpos
      · rw [hz, Nat.mul_zero] at hk
        omega
      · exact hpos
    refine ⟨?_, Nat.mod_lt _ hpos⟩
    rw [Nat.mul_comm] at hk
    exact Nat.div_lt_of_lt_mul hk
  · intro hp
    have hpos : 0 < inner_size := by omega
    refine ⟨inner_size * p.1 + p.2, ?_, ?_⟩
    · rw [List.mem_range]
      have hle : inner_size * (p.1 + 1) ≤ inner_size * outer_size :=
        Nat.mul_le_mul_left _ hp.1
      rw [Nat.mul_add, Nat.mul_one] at hle
      rw [Nat.mul_comm outer_size inner_size]
      omega
    · rw [Nat.mul_add_div hpos, Nat.mul_add_mod, Nat.div_eq_of_lt hp.2,
        Nat.mod_eq_of_lt hp.2, Nat.add_zero]

/-- C16: for every `outer_size` and `inner_size` whose product does not overflow `size_t`,
every `threshold ≥ 1` and every hardware thread count `≥ 1`, `parallel_for_2d` completes
without a division by zero; the calls of `work_func`, taken in thread order, are the pairs
`(k / inner_size, k % inner_size)` for the flat indices `k = 0, ..., outer_size * inner_size
- 1`; no pair is passed twice, and the pairs passed are exactly the pairs `(outer, inner)` with
`outer < outer_size` and `inner < inner_size`; for `inner_size = 0` no call is made. -/
theorem parallel_for_2d_each_pair_once (hw outer_size inner_size threshold : Nat)
    (hprod : outer_size * inner_size < SIZE_MOD) (hthr : 1 ≤ threshold) (hhw : 1 ≤ hw) :
    ∃ d, parallel_for_2d hw outer_size inner_size threshold = some d ∧
      d.calls.flatten =
        (List.range (outer_size * inner_size)).map
          (fun k => (k / inner_size, k % inner_size)) ∧
      d.calls.flatten.Nodup ∧
      (∀ p : Nat × Nat, p ∈ d.calls.flatten ↔ p.1 < outer_size ∧ p.2 < inner_size) ∧
      (inner_size = 0 → d.calls.flatten = []) := by
  have hkey : ∃ d, parallel_for_2d hw outer_size inner_size threshold = some d ∧
      d.calls.flatten = (List.range (outer_size * inner_size)).map
        (fun k => (k / inner_size, k % inner_size)) := by
    rcases Nat.eq_zero_or_pos inner_size with hz | hpos
    · subst hz
      have hc : get_optimal_thread_count hw 0 threshold = some 1 := by
        unfold get_optimal_thread_count
        rw [if_pos (by omega)]
      refine ⟨{ spawned := 0, calls := [[]] }, ?_, ?_⟩
      · unfold parallel_for_2d
        simp only
        rw [size_mul_of_lt _ _ hprod, Nat.mul_zero]
        unfold parallel_for
        rw [hc]
        rfl
      · simp
    · obtain ⟨d0, hd0, hcover⟩ :=
        parallel_for_index_cover hw (outer_size * inner_size) threshold hprod hthr hhw
      refine ⟨{ spawned := d0.spawned,
                calls := d0.calls.map (fun r => (List.range' r.1 (r.2 - r.1)).map
                  (fun k => (k / inner_size, k % inner_size))) }, ?_, ?_⟩
      · unfold parallel_for_2d
        simp only
        rw [size_mul_of_lt _ _ hprod, hd0]
        simp only
        rw [all_defined_map (fun r => lambda_2d inner_size r.1 r.2)
          (fun r => (List.range' r.1 (r.2 - r.1)).map
            (fun k => (k / inner_size, k % inner_size))) d0.calls
          (fun r _ => lambda_2d_of_pos inner_size r.1 r.2 hpos)]
      · simp only
        rw [← hcover, List.map_flatten, List.map_map]
        rfl
  obtain ⟨d, hd, hflat⟩ := hkey
  refine ⟨d, hd, hflat, ?_, ?_, ?_⟩
  · rw [hflat]
    exact nodup_index_pairs outer_size inner_size
  · intro p
    rw [hflat]
    exact mem_index_pairs outer_size inner_size p
  · intro hz
    rw [hflat, hz, Nat.mul_zero]
    rfl

theorem parallel_for_2d_each_pair_once_witness :
    (3 * 4 : Nat) < SIZE_MOD ∧ 1 ≤ 2 ∧ 1 ≤ 4 ∧
      ∃ d, parallel_for_2d 4 3 4 2 = some d ∧
        d.calls.flatten = (List.range (3 * 4)).map (fun k => (k / 4, k % 4)) ∧
        d.calls.flatten.Nodup ∧
        (∀ p : Nat × Nat, p ∈ d.calls.flatten ↔ p.1 < 3 ∧ p.2 < 4) ∧
        (4 = 0 → d.calls.flatten = []) :=
  ⟨by decide, by decide, by decide,
    parallel_for_2d_each_pair_once 4 3 4 2 (by decide) (by decide) (by decide)⟩

end CactusThreading

/-! ## C17 -/

/-- C17: for all 16-lane signed-8-bit vectors `a`, `b` and every accumulator `acc`, the
dot-product tier of `accum_i8mm` (`vdotq_s32`, lane `j` takes elements `4j..4j+3`) and the
emulation tier (lane `j` takes elements `2j, 2j+1, 8+2j, 9+2j`) give accumulators whose
four-lane sums agree modulo `2^32`; every product satisfies `|a[i]*b[i]| ≤ 16384`, and the
16-bit lanes computed by `vmull_s8` in the emulation hold the exact products (no `int16_t`
overflow). -/
theorem accum_i8mm_tiers_same_lane_sum (acc : Fin 4 → Int) (a b : Fin 16 → Int)
    (ha : lanes_int8 a) (hb : lanes_int8 b) :
    lane_sum (accum_i8mm_dotprod acc a b) % 2 ^ 32 = lane_sum (accum_i8mm acc a b) % 2 ^ 32 ∧
      (∀ i : Fin 16, |a i * b i| ≤ 16384) ∧
      (∀ i : Fin 8,
        vmull_s8 (vget_low_s8 a) (vget_low_s8 b) i =
            a ⟨i.val, by omega⟩ * b ⟨i.val, by omega⟩ ∧
          vmull_s8 (vget_high_s8 a) (vget_high_s8 b) i =
            a ⟨i.val + 8, by omega⟩ * b ⟨i.val + 8, by omega⟩) := by
  refine ⟨?_, ?_, ?_⟩
  · unfold lane_sum
    rw [accum_i8mm_lane acc a b ha hb 0, accum_i8mm_lane acc a b ha hb 1,
      accum_i8mm_lane acc a b ha hb 2, accum_i8mm_lane acc a b ha hb 3]
    show (to_int32 (acc 0 + (a 0 * b 0 + a 1 * b 1 + a 2 * b 2 + a 3 * b 3)) +
          to_int32 (acc 1 + (a 4 * b 4 + a 5 * b 5 + a 6 * b 6 + a 7 * b 7)) +
          to_int32 (acc 2 + (a 8 * b 8 + a 9 * b 9 + a 10 * b 10 + a 11 * b 11)) +
          to_int32 (acc 3 + (a 12 * b 12 + a 13 * b 13 + a 14 * b 14 + a 15 * b 15))) %
          2 ^ 32 =
        (to_int32 (acc 0 + (a 0 * b 0 + a 1 * b 1 + a 8 * b 8 + a 9 * b 9)) +
          to_int32 (acc 1 + (a 2 * b 2 + a 3 * b 3 + a 10 * b 10 + a 11 * b 11)) +
          to_int32 (acc 2 + (a 4 * b 4 + a 5 * b 5 + a 12 * b 12 + a 13 * b 13)) +
          to_int32 (acc 3 + (a 6 * b 6 + a 7 * b 7 + a 14 * b 14 + a 15 * b 15))) % 2 ^ 32
    unfold to_int32
    omega
  · intro i
    have h := int8_mul_bounds _ _ (ha i) (hb i)
    exact abs_le.mpr ⟨by omega, h.2⟩
  · intro i
    exact ⟨to_int16_mul _ _ (ha _) (hb _), to_int16_mul _ _ (ha _) (hb _)⟩

theorem accum_i8mm_tiers_same_lane_sum_witness :
    lanes_int8 (fun _ : Fin 16 => (-128 : Int)) ∧ lanes_int8 (fun _ : Fin 16 => (-128 : Int)) ∧
      lane_sum (accum_i8mm_dotprod (fun _ => 2 ^ 31 - 1) (fun _ => -128) (fun _ => -128)) %
          2 ^ 32 =
        lane_sum (accum_i8mm (fun _ => 2 ^ 31 - 1) (fun _ => -128) (fun _ => -128)) % 2 ^ 32 :=
  ⟨fun _ => ⟨by norm_num, by norm_num⟩, fun _ => ⟨by norm_num, by norm_num⟩,
    (accum_i8mm_tiers_same_lane_sum (fun _ => 2 ^ 31 - 1) (fun _ => -128) (fun _ => -128)
      (fun _ => ⟨by norm_num, by norm_num⟩) (fun _ => ⟨by norm_num, by norm_num⟩)).1⟩

end Cactus
